import Mathlib

/-!
Verification of the PipeMagic pipeline runtime (shallow embedding).

This file embeds the core of the `pipemagic` runtime in Lean 4:

* the cache-key hasher (`packages/runtime/src/utils/hash.ts`),
* the graph utilities (`utils/graph.ts`: `topoSort`, `validatePipeline`,
  `getUpstreamNodes`, `hasCycle`),
* the scheduler (`runner.ts`: `runPipeline`),
* the Outline executor's CPU fallback (`executors/outline.ts`),
* the Normalize executor (`executors/normalize.ts`),
* the JFA step schedule of the GPU outline path.

JavaScript numbers are modelled as rationals (`ℚ`) where fractional values
occur, and as `Nat` where the source only ever holds non-negative integers.
32-bit wrap-around (`>>> 0`) is modelled by explicit `% 2 ^ 32`.  External
platform capabilities (canvas rasterisation, ML executors, GPU devices,
bitmap encoding) are abstracted as explicit function parameters; everything
the TypeScript source computes itself is translated directly.
-/

/-! ## JSON values and `JSON.stringify` with an array replacer

`computeCacheKey` serialises the params object with
`JSON.stringify(params, Object.keys(params).sort())`.  Per ECMA-262, when the
replacer is an array it becomes the `PropertyList`: at *every* object level
only the keys occurring in that list are serialised, in the list's order.
-/

mutual

/-- A JSON-ish runtime value (the `unknown` params values of the source). -/
inductive JsonVal : Type where
  | num (q : ℚ)
  | str (s : String)
  | bool (b : Bool)
  | obj (fields : JsonFields)

/-- The own properties of a JSON object, in insertion order. -/
inductive JsonFields : Type where
  | nil
  | cons (k : String) (v : JsonVal) (rest : JsonFields)

end

/-- The key/value pairs of a `JsonFields` as a plain list. -/
def fieldsList : JsonFields → List (String × JsonVal)
  | .nil => []
  | .cons k v rest => (k, v) :: fieldsList rest

/-- The keys of a params object, in insertion order (`Object.keys`). -/
def fieldKeys : JsonFields → List String
  | .nil => []
  | .cons k _ rest => k :: fieldKeys rest

/-- Property lookup: the value of the first field named `k`, if any. -/
def lookupF (k : String) : JsonFields → Option JsonVal
  | .nil => none
  | .cons k2 v rest => if k2 = k then some v else lookupF k rest

/-- JSON string quoting (escaping backslash and double quote). -/
def jsonQuote (s : String) : String :=
  "\"" ++ String.mk (s.data.flatMap (fun c =>
    if c = '\\' then ['\\', '\\'] else if c = '"' then ['\\', '"'] else [c])) ++ "\""

/-- Join a list of strings with a separator (`Array.prototype.join`). -/
def joinSep (sep : String) : List String → String
  | [] => ""
  | [x] => x
  | x :: xs => x ++ sep ++ joinSep sep xs

mutual

/-- Serialise a JSON value under `PropertyList` `K` (ECMA-262
`SerializeJSONProperty`): objects keep only keys from `K`, in `K`'s order,
at every nesting level.  Number formatting is modelled canonically via
`toString`. -/
def serVal (K : List String) : JsonVal → String
  | .num q => toString q
  | .str s => jsonQuote s
  | .bool b => if b then "true" else "false"
  | .obj fs =>
      "\x7b" ++
        joinSep ","
          (K.filterMap (fun k =>
            (List.lookup k (serFields K fs)).map (fun sv => jsonQuote k ++ ":" ++ sv))) ++
      "\x7d"

/-- Serialise every field's value (order and multiplicity preserved), so that
object serialisation can look keys up in the result. -/
def serFields (K : List String) : JsonFields → List (String × String)
  | .nil => []
  | .cons k v rest => (k, serVal K v) :: serFields K rest

end

/-- Sort a key list lexicographically (`Array.prototype.sort` on strings). -/
def sortKeys (ks : List String) : List String :=
  ks.insertionSort (· ≤ ·)

/-- Model of `JSON.stringify(params, Object.keys(params).sort())`. -/
def stringifyParams (p : JsonFields) : String :=
  serVal (sortKeys (fieldKeys p)) (.obj p)

/-- djb2 hash as in `simpleHash`: `hash = ((hash << 5) + hash + c) >>> 0`
starting from 5381; the `>>> 0` is 32-bit wrap-around, so each step is
`(hash * 33 + charCode) % 2^32`. -/
def simpleHashNat (s : String) : Nat :=
  s.data.foldl (fun h c => (h * 33 + c.toNat) % 2 ^ 32) 5381

/-- One base-36 digit (`0`-`9`, `a`-`z`), as produced by `toString(36)`. -/
def b36digit (d : Nat) : Char :=
  if d < 10 then Char.ofNat (48 + d) else Char.ofNat (87 + d)

/-- Accumulate base-36 digits of `n`, most significant first.  The first
argument is structural fuel; any fuel `≥ n` is enough since `n / 36 < n`. -/
def b36go : Nat → Nat → List Char → List Char
  | 0, _, acc => acc
  | fuel + 1, n, acc =>
      if n = 0 then acc else b36go fuel (n / 36) (b36digit (n % 36) :: acc)

/-- Model of `Number.prototype.toString(36)` for naturals. -/
def natToBase36 (n : Nat) : String :=
  if n = 0 then "0" else String.mk (b36go n n [])

/-- Model of `simpleHash`: djb2 then base-36 rendering. -/
def simpleHash (s : String) : String :=
  natToBase36 (simpleHashNat s)

/-- Model of `computeCacheKey` (`utils/hash.ts`):
`` `${nodeId}:${simpleHash(paramsStr)}:${simpleHash(inputStr)}` `` where
`paramsStr = JSON.stringify(params, Object.keys(params).sort())` and
`inputStr = inputRevisions.join(',')`. -/
def computeCacheKey (nodeId : String) (params : JsonFields) (inputRevisions : List Nat) :
    String :=
  let paramsStr := stringifyParams params
  let inputStr := joinSep "," (inputRevisions.map (fun r => toString r))
  nodeId ++ ":" ++ simpleHash paramsStr ++ ":" ++ simpleHash inputStr

/-! ## Pipeline data model (`types/pipeline.ts`)

`position` and `label` are opaque to every embedded function and are omitted
from the node record. -/

/-- The closed set of node kinds (`NodeType`). -/
inductive NodeType : Type where
  | input
  | output
  | removeBg
  | normalize
  | upscale
  | outline
deriving DecidableEq, Repr

/-- A node declaration (`NodeDef`). -/
structure NodeDef : Type where
  id : String
  type : NodeType
  params : JsonFields

/-- An edge declaration (`EdgeDef`). -/
structure EdgeDef : Type where
  id : String
  source : String
  sourceHandle : String
  target : String
  targetHandle : String

/-- A pipeline (`PipelineDefinition`). -/
structure PipelineDefinition : Type where
  version : Nat
  nodes : List NodeDef
  edges : List EdgeDef

/-! ## Graph utilities (`utils/graph.ts`) -/

/-- First-occurrence deduplication with a seen-set accumulator. -/
def jsDedupAux (seen : List String) : List String → List String
  | [] => []
  | x :: xs => if x ∈ seen then jsDedupAux seen xs else x :: jsDedupAux (x :: seen) xs

/-- First-occurrence deduplication: the iteration order of
`new Set(nodes.map(n => n.id))`. -/
def jsDedup (l : List String) : List String :=
  jsDedupAux [] l

/-- The declared node ids, in `Set` iteration order (`nodeIds` in `topoSort`). -/
def declaredIds (nodes : List NodeDef) : List String :=
  jsDedup (nodes.map (fun n => n.id))

/-- The edges whose source and target are both declared; the others are
skipped by `topoSort`'s `continue`. -/
def validEdges (nodes : List NodeDef) (edges : List EdgeDef) : List EdgeDef :=
  edges.filter (fun e =>
    decide (e.source ∈ declaredIds nodes) && decide (e.target ∈ declaredIds nodes))

/-- The adjacency list built by `topoSort`: targets of the valid edges out of
`u`, in edge order. -/
def adjOf (nodes : List NodeDef) (edges : List EdgeDef) (u : String) : List String :=
  ((validEdges nodes edges).filter (fun e => decide (e.source = u))).map (fun e => e.target)

/-- In-degrees with the sources in `s` discounted; `degAt [] = the initial
in-degree map of `topoSort`. -/
def degAt (nodes : List NodeDef) (edges : List EdgeDef) (s : List String) (v : String) :
    Nat :=
  (validEdges nodes edges).countP (fun e => decide (e.target = v) && decide (e.source ∉ s))

/-- One pop's neighbor loop: decrement each neighbor's in-degree
(`(inDegree.get(neighbor) || 1) - 1`, which on naturals is truncated
subtraction) and enqueue it when the new degree is zero. -/
def foldDec : List String → (String → Nat) → List String → (String → Nat) × List String
  | [], d, q => (d, q)
  | v :: rest, d, q =>
      let dv := d v - 1
      foldDec rest (fun w => if w = v then dv else d w) (if dv = 0 then q ++ [v] else q)

/-- The `while (queue.length > 0)` loop of Kahn's algorithm.  `fuel` bounds
the number of pops; `topoSort` passes one more than the number of declared
ids, which is proved sufficient below (the queue always empties first). -/
def kahnLoop (adj : String → List String) :
    Nat → (String → Nat) → List String → List String → List String
  | 0, _, _, sorted => sorted
  | _ + 1, _, [], sorted => sorted
  | fuel + 1, d, u :: qs, sorted =>
      let step := foldDec (adj u) d qs
      kahnLoop adj fuel step.1 step.2 (sorted ++ [u])

/-- Model of `topoSort` (Kahn's algorithm): ordered node ids, or the error
`"Pipeline contains a cycle"` when not every declared id was popped. -/
def topoSort (nodes : List NodeDef) (edges : List EdgeDef) : Except String (List String) :=
  let ids := declaredIds nodes
  let d0 := degAt nodes edges []
  let q0 := ids.filter (fun v => decide (d0 v = 0))
  let sorted := kahnLoop (adjOf nodes edges) (ids.length + 1) d0 q0 []
  if sorted.length = ids.length then .ok sorted
  else .error "Pipeline contains a cycle"

/-- Model of `hasCycle`: `topoSort` in a `try`/`catch`. -/
def hasCycle (nodes : List NodeDef) (edges : List EdgeDef) : Bool :=
  match topoSort nodes edges with
  | .ok _ => false
  | .error _ => true

/-- Model of `getUpstreamNodes`: sources of all edges into `nodeId`, in edge
order (declared or not — the runner filters by available outputs). -/
def getUpstreamNodes (nodeId : String) (edges : List EdgeDef) : List String :=
  (edges.filter (fun e => decide (e.target = nodeId))).map (fun e => e.source)

/-- A validation error record (`ValidationError` in `utils/graph.ts`). -/
structure VError : Type where
  nodeId : Option String
  message : String
deriving DecidableEq, Repr

/-- The per-node connectivity checks of `validatePipeline`. -/
def nodeConnErrors (targetIds sourceIds : List String) (n : NodeDef) : List VError :=
  (if n.type = .input ∧ n.id ∉ sourceIds then
    [⟨some n.id, "Input node \"" ++ n.id ++ "\" has no outgoing connection"⟩] else []) ++
  (if n.type = .output ∧ n.id ∉ targetIds then
    [⟨some n.id, "Output node \"" ++ n.id ++ "\" has no incoming connection"⟩] else []) ++
  (if n.type ≠ .input ∧ n.type ≠ .output then
    (if n.id ∉ targetIds then
      [⟨some n.id, "Node \"" ++ n.id ++ "\" has no input connection"⟩] else []) ++
    (if n.id ∉ sourceIds then
      [⟨some n.id, "Node \"" ++ n.id ++ "\" has no output connection"⟩] else [])
  else [])

/-- Model of `validatePipeline`: all structural errors, in push order. -/
def validatePipeline (nodes : List NodeDef) (edges : List EdgeDef) : List VError :=
  (if (nodes.filter (fun n => decide (n.type = .input))).length = 0 then
    [⟨none, "Pipeline needs at least one Input node"⟩] else []) ++
  (if (nodes.filter (fun n => decide (n.type = .output))).length = 0 then
    [⟨none, "Pipeline needs at least one Output node"⟩] else []) ++
  (if hasCycle nodes edges then [⟨none, "Pipeline contains a cycle"⟩] else []) ++
  (let targetIds := edges.map (fun e => e.target)
   let sourceIds := edges.map (fun e => e.source)
   nodes.flatMap (nodeConnErrors targetIds sourceIds))

/-- The edge relation among declared nodes: a valid edge from `u` to `v`. -/
def edgeRel (nodes : List NodeDef) (edges : List EdgeDef) (u v : String) : Prop :=
  ∃ e ∈ validEdges nodes edges, e.source = u ∧ e.target = v

/-- A cycle among declared nodes: a nonempty valid-edge path from some node
back to itself. -/
def HasCycle (nodes : List NodeDef) (edges : List EdgeDef) : Prop :=
  ∃ c, Relation.TransGen (edgeRel nodes edges) c c

/-- `a` appears strictly before `b` in `l`. -/
def listBefore (a b : String) (l : List String) : Prop :=
  ∃ l₁ l₂ l₃, l = l₁ ++ a :: (l₂ ++ b :: l₃)

/-! ## Correctness of `topoSort` -/

theorem jsDedupAux_mem : ∀ (l seen : List String) (x : String),
    x ∈ jsDedupAux seen l ↔ x ∈ l ∧ x ∉ seen := by
  intro l
  induction l with
  | nil => intro seen x; simp [jsDedupAux]
  | cons y ys ih =>
    intro seen x
    rw [jsDedupAux]
    by_cases hy : y ∈ seen
    · rw [if_pos hy, ih]
      constructor
      · rintro ⟨h1, h2⟩
        exact ⟨List.mem_cons_of_mem y h1, h2⟩
      · rintro ⟨h1, h2⟩
        rcases List.mem_cons.1 h1 with h3 | h3
        · exact absurd (h3 ▸ hy) h2
        · exact ⟨h3, h2⟩
    · rw [if_neg hy]
      by_cases hxy : x = y
      · simp [hxy, hy]
      · simp only [List.mem_cons, ih, List.mem_cons]
        constructor
        · rintro (h | ⟨h1, h2⟩)
          · exact absurd h hxy
          · exact ⟨Or.inr h1, fun hs => h2 (Or.inr hs)⟩
        · rintro ⟨h1, h2⟩
          rcases h1 with h1 | h1
          · exact absurd h1 hxy
          · exact Or.inr ⟨h1, fun hs => by
              rcases hs with hs | hs
              · exact hxy hs
              · exact h2 hs⟩

theorem jsDedup_mem (l : List String) (x : String) : x ∈ jsDedup l ↔ x ∈ l := by
  rw [jsDedup, jsDedupAux_mem]
  simp

theorem jsDedupAux_nodup : ∀ (l seen : List String), (jsDedupAux seen l).Nodup := by
  intro l
  induction l with
  | nil => intro seen; simp [jsDedupAux]
  | cons y ys ih =>
    intro seen
    rw [jsDedupAux]
    by_cases hy : y ∈ seen
    · rw [if_pos hy]; exact ih seen
    · rw [if_neg hy]
      refine List.nodup_cons.2 ⟨?_, ih (y :: seen)⟩
      rw [jsDedupAux_mem]
      simp

theorem jsDedup_nodup (l : List String) : (jsDedup l).Nodup :=
  jsDedupAux_nodup l []

theorem foldDec_deg : ∀ (l : List String) (d : String → Nat) (q : List String) (w : String),
    (foldDec l d q).1 w = d w - l.count w := by
  intro l
  induction l with
  | nil => intro d q w; simp [foldDec]
  | cons v rest ih =>
    intro d q w
    rw [foldDec, ih]
    by_cases hw : w = v
    · rw [hw, if_pos rfl, List.count_cons_self]
      omega
    · rw [if_neg hw, List.count_cons_of_ne hw]

theorem foldDec_queue :
    ∀ (l : List String) (d : String → Nat) (q : List String),
    (∀ w, l.count w ≤ d w) → (∀ w ∈ q, d w = 0) → q.Nodup →
    (∀ w, w ∈ (foldDec l d q).2 ↔ w ∈ q ∨ (w ∈ l ∧ d w = l.count w)) ∧
      (foldDec l d q).2.Nodup ∧
      (∀ w ∈ (foldDec l d q).2, (foldDec l d q).1 w = 0) := by
  intro l
  induction l with
  | nil =>
    intro d q hc hq hnd
    refine ⟨by simp [foldDec], by simpa [foldDec] using hnd, ?_⟩
    intro w hw
    simp only [foldDec] at hw ⊢
    simpa using hq w hw
  | cons v rest ih =>
    intro d q hc hq hnd
    have hdv : 1 ≤ d v := le_trans (by rw [List.count_cons_self]; omega) (hc v)
    have hvq : v ∉ q := by
      intro hvq
      have := hq v hvq
      omega
    rw [foldDec]
    set d1 : String → Nat := fun w => if w = v then d v - 1 else d w with hd1
    set q1 : List String := if d v - 1 = 0 then q ++ [v] else q with hq1
    have hd1v : d1 v = d v - 1 := by simp [hd1]
    have hd1ne : ∀ w, w ≠ v → d1 w = d w := by
      intro w hwv; simp [hd1, hwv]
    have hc1 : ∀ w, rest.count w ≤ d1 w := by
      intro w
      by_cases hwv : w = v
      · rw [hwv, hd1v]
        have := hc v
        rw [List.count_cons_self] at this
        omega
      · rw [hd1ne w hwv]
        have := hc w
        rw [List.count_cons_of_ne hwv] at this
        omega
    have hq1m : ∀ w ∈ q1, d1 w = 0 := by
      intro w hw
      by_cases hdv0 : d v - 1 = 0
      · rw [hq1, if_pos hdv0] at hw
        rcases List.mem_append.1 hw with h | h
        · by_cases hwv : w = v
          · rw [hwv, hd1v, hdv0]
          · rw [hd1ne w hwv]; exact hq w h
        · simp only [List.mem_singleton] at h
          rw [h, hd1v, hdv0]
      · rw [hq1, if_neg hdv0] at hw
        by_cases hwv : w = v
        · exact absurd (hwv ▸ hw) hvq
        · rw [hd1ne w hwv]; exact hq w hw
    have hnd1 : q1.Nodup := by
      by_cases hdv0 : d v - 1 = 0
      · rw [hq1, if_pos hdv0]
        simpa [List.nodup_append] using ⟨hnd, hvq⟩
      · rw [hq1, if_neg hdv0]; exact hnd
    obtain ⟨ihm, ihnd, ihz⟩ := ih d1 q1 hc1 hq1m hnd1
    refine ⟨?_, ihnd, ihz⟩
    intro w
    rw [ihm w]
    by_cases hwv : w = v
    · rw [hwv]
      have hcount : (v :: rest).count v = rest.count v + 1 := List.count_cons_self v rest
      by_cases hdv0 : d v - 1 = 0
      · have hdv1 : d v = 1 := by omega
        have hrc : rest.count v = 0 := by
          have := hc v
          rw [hcount] at this
          omega
        simp only [hq1, if_pos hdv0]
        constructor
        · intro _; exact Or.inr ⟨List.mem_cons_self v rest, by rw [hcount]; omega⟩
        · intro _; exact Or.inl (by simp)
      · have hdv2 : 2 ≤ d v := by omega
        simp only [hq1, if_neg hdv0]
        constructor
        · rintro (h | ⟨hmem, hcnt⟩)
          · exact Or.inl h
          · refine Or.inr ⟨List.mem_cons_self v rest, ?_⟩
            rw [hcount]
            rw [hd1v] at hcnt
            omega
        · rintro (h | ⟨_, hcnt⟩)
          · exact Or.inl h
          · rw [hcount] at hcnt
            by_cases hr : v ∈ rest
            · refine Or.inr ⟨hr, ?_⟩
              rw [hd1v]
              omega
            · have : rest.count v = 0 := by
                simpa using List.count_eq_zero.2 hr
              omega
    · have hq1w : w ∈ q1 ↔ w ∈ q := by
        by_cases hdv0 : d v - 1 = 0
        · rw [hq1, if_pos hdv0]
          simp [hwv]
        · rw [hq1, if_neg hdv0]
      rw [hq1w, hd1ne w hwv, List.count_cons_of_ne hwv]
      constructor
      · rintro (h | ⟨hm, hc2⟩)
        · exact Or.inl h
        · exact Or.inr ⟨List.mem_cons_of_mem v hm, hc2⟩
      · rintro (h | ⟨hm, hc2⟩)
        · exact Or.inl h
        · rcases List.mem_cons.1 hm with h2 | h2
          · exact absurd h2 hwv
          · exact Or.inr ⟨h2, hc2⟩

theorem countP_split {α : Type} (l : List α) (p r : α → Bool) :
    l.countP p = l.countP (fun a => p a && r a) + l.countP (fun a => p a && !r a) := by
  induction l with
  | nil => simp
  | cons x xs ih =>
    simp only [List.countP_cons]
    cases hp : p x <;> cases hr : r x <;> simp [hp, hr] <;> omega

theorem count_adjOf (nodes : List NodeDef) (edges : List EdgeDef) (u w : String) :
    (adjOf nodes edges u).count w
      = (validEdges nodes edges).countP
          (fun e => decide (e.target = w) && decide (e.source = u)) := by
  rw [adjOf, List.count_eq_countP, List.countP_map, List.countP_filter]
  refine List.countP_congr ?_
  intro e _
  simp only [Function.comp_apply, Bool.and_eq_true, beq_iff_eq, decide_eq_true_eq]

theorem mem_validEdges_target (nodes : List NodeDef) (edges : List EdgeDef) (e : EdgeDef)
    (he : e ∈ validEdges nodes edges) : e.target ∈ declaredIds nodes := by
  rw [validEdges, List.mem_filter] at he
  have := he.2
  simp only [Bool.and_eq_true, decide_eq_true_eq] at this
  exact this.2

theorem mem_validEdges_source (nodes : List NodeDef) (edges : List EdgeDef) (e : EdgeDef)
    (he : e ∈ validEdges nodes edges) : e.source ∈ declaredIds nodes := by
  rw [validEdges, List.mem_filter] at he
  have := he.2
  simp only [Bool.and_eq_true, decide_eq_true_eq] at this
  exact this.1

theorem degAt_zero_iff (nodes : List NodeDef) (edges : List EdgeDef) (s : List String)
    (v : String) :
    degAt nodes edges s v = 0
      ↔ ∀ e ∈ validEdges nodes edges, e.target = v → e.source ∈ s := by
  rw [degAt, List.countP_eq_zero]
  constructor
  · intro h e he ht
    have := h e he
    simp only [Bool.and_eq_true, decide_eq_true_eq, not_and] at this
    by_contra hs
    exact (this ht) hs
  · intro h e he
    simp only [Bool.and_eq_true, decide_eq_true_eq, not_and]
    intro ht hs
    exact hs (h e he ht)

theorem degAt_append (nodes : List NodeDef) (edges : List EdgeDef) (s : List String)
    (u : String) (hu : u ∉ s) (v : String) :
    degAt nodes edges s v
      = degAt nodes edges (s ++ [u]) v + (adjOf nodes edges u).count v := by
  rw [count_adjOf]
  rw [degAt, degAt,
    countP_split (validEdges nodes edges)
      (fun e => decide (e.target = v) && decide (e.source ∉ s))
      (fun e => decide (e.source = u))]
  have h1 :
      (validEdges nodes edges).countP
          (fun e => (decide (e.target = v) && decide (e.source ∉ s)) && !decide (e.source = u))
        = (validEdges nodes edges).countP
            (fun e => decide (e.target = v) && decide (e.source ∉ s ++ [u])) := by
    refine List.countP_congr ?_
    intro e _
    simp only [Bool.and_eq_true, decide_eq_true_eq, Bool.not_eq_true', decide_eq_false_iff_not,
      List.mem_append, List.mem_singleton]
    constructor
    · rintro ⟨⟨ht, hs⟩, hne⟩
      exact ⟨ht, by tauto⟩
    · rintro ⟨ht, hs⟩
      exact ⟨⟨ht, fun h => hs (Or.inl h)⟩, fun h => hs (Or.inr h)⟩
  have h2 :
      (validEdges nodes edges).countP
          (fun e => (decide (e.target = v) && decide (e.source ∉ s)) && decide (e.source = u))
        = (validEdges nodes edges).countP
            (fun e => decide (e.target = v) && decide (e.source = u)) := by
    refine List.countP_congr ?_
    intro e _
    simp only [Bool.and_eq_true, decide_eq_true_eq]
    constructor
    · rintro ⟨⟨ht, _⟩, hsu⟩
      exact ⟨ht, hsu⟩
    · rintro ⟨ht, hsu⟩
      exact ⟨⟨ht, hsu ▸ hu⟩, hsu⟩
  rw [h1, h2]
  omega

theorem adjOf_count_le_degAt (nodes : List NodeDef) (edges : List EdgeDef) (s : List String)
    (u : String) (hu : u ∉ s) (w : String) :
    (adjOf nodes edges u).count w ≤ degAt nodes edges s w := by
  rw [degAt_append nodes edges s u hu w]
  omega

theorem mem_adjOf_declared (nodes : List NodeDef) (edges : List EdgeDef) (u w : String)
    (hw : w ∈ adjOf nodes edges u) : w ∈ declaredIds nodes := by
  rw [adjOf, List.mem_map] at hw
  obtain ⟨e, he, rfl⟩ := hw
  rw [List.mem_filter] at he
  exact mem_validEdges_target nodes edges e he.1

/-- The loop invariant of Kahn's algorithm: `s` is the popped prefix, `q` the
queue, `d` the current in-degree map. -/
structure KahnInv (nodes : List NodeDef) (edges : List EdgeDef)
    (d : String → Nat) (q s : List String) : Prop where
  nodup : (s ++ q).Nodup
  declared : ∀ x ∈ s ++ q, x ∈ declaredIds nodes
  degEq : ∀ v, d v = degAt nodes edges s v
  degZero : ∀ v ∈ s ++ q, degAt nodes edges s v = 0
  complete : ∀ v ∈ declaredIds nodes, degAt nodes edges s v = 0 → v ∈ s ++ q
  topo : ∀ e ∈ validEdges nodes edges, e.target ∈ s → listBefore e.source e.target s

theorem listBefore_append_right {a b : String} {s t : List String}
    (h : listBefore a b s) : listBefore a b (s ++ t) := by
  obtain ⟨l₁, l₂, l₃, rfl⟩ := h
  exact ⟨l₁, l₂, l₃ ++ t, by simp⟩

theorem listBefore_snoc {a b : String} {s : List String}
    (ha : a ∈ s) : listBefore a b (s ++ [b]) := by
  obtain ⟨l₁, l₂, rfl⟩ := List.append_of_mem ha
  exact ⟨l₁, l₂, [], by simp⟩

theorem kahnInv_step (nodes : List NodeDef) (edges : List EdgeDef)
    (d : String → Nat) (u : String) (qs s : List String)
    (inv : KahnInv nodes edges d (u :: qs) s) :
    KahnInv nodes edges (foldDec (adjOf nodes edges u) d qs).1
      (foldDec (adjOf nodes edges u) d qs).2 (s ++ [u]) := by
  have hnodup := inv.nodup
  rw [List.nodup_append] at hnodup
  obtain ⟨hsnd, huqnd, hdisj⟩ := hnodup
  have huq : u ∉ qs := (List.nodup_cons.1 huqnd).1
  have hqsnd : qs.Nodup := (List.nodup_cons.1 huqnd).2
  have hus : u ∉ s := fun h => hdisj h (List.mem_cons_self u qs)
  have hc : ∀ w, (adjOf nodes edges u).count w ≤ d w := by
    intro w
    rw [inv.degEq w]
    exact adjOf_count_le_degAt nodes edges s u hus w
  have hq0 : ∀ w ∈ qs, d w = 0 := by
    intro w hw
    rw [inv.degEq w]
    exact inv.degZero w (by simp [hw])
  obtain ⟨hmem, hnd2, hzero⟩ := foldDec_queue (adjOf nodes edges u) d qs hc hq0 hqsnd
  have hdeg2 : ∀ v, (foldDec (adjOf nodes edges u) d qs).1 v
      = degAt nodes edges (s ++ [u]) v := by
    intro v
    rw [foldDec_deg, inv.degEq v]
    have := degAt_append nodes edges s u hus v
    omega
  have hnotin : ∀ w ∈ (foldDec (adjOf nodes edges u) d qs).2, w ∉ s ∧ w ≠ u := by
    intro w hw
    rcases (hmem w).1 hw with h | ⟨hwa, hwc⟩
    · constructor
      · intro hws
        exact hdisj hws (List.mem_cons_of_mem u h)
      · intro hwu
        exact huq (hwu ▸ h)
    · have hwpos : 1 ≤ d w := by
        have : 0 < (adjOf nodes edges u).count w := List.count_pos_iff.2 hwa
        omega
      constructor
      · intro hws
        have := inv.degZero w (by simp [hws])
        rw [inv.degEq w] at hwpos
        omega
      · intro hwu
        have := inv.degZero w (by simp [hwu])
        rw [inv.degEq w] at hwpos
        omega
  refine ⟨?_, ?_, hdeg2, ?_, ?_, ?_⟩
  · rw [List.nodup_append]
    refine ⟨by simp [List.nodup_append, hsnd, hus], hnd2, ?_⟩
    intro x hx hx2
    rcases List.mem_append.1 hx with h | h
    · exact (hnotin x hx2).1 h
    · exact (hnotin x hx2).2 (by simpa using h)
  · intro x hx
    rcases List.mem_append.1 hx with h | h
    · rcases List.mem_append.1 h with h2 | h2
      · exact inv.declared x (by simp [h2])
      · have : x = u := by simpa using h2
        exact inv.declared x (by simp [this])
    · rcases (hmem x).1 h with h2 | ⟨h2, _⟩
      · exact inv.declared x (by simp [h2])
      · exact mem_adjOf_declared nodes edges u x h2
  · intro v hv
    rcases List.mem_append.1 hv with h | h
    · have hle : degAt nodes edges (s ++ [u]) v ≤ degAt nodes edges s v := by
        have := degAt_append nodes edges s u hus v
        omega
      have : degAt nodes edges s v = 0 := by
        rcases List.mem_append.1 h with h2 | h2
        · exact inv.degZero v (by simp [h2])
        · have : v = u := by simpa using h2
          exact inv.degZero v (by simp [this])
      omega
    · rw [← hdeg2 v]
      exact hzero v h
  · intro v hvdecl hvdeg
    have hs : degAt nodes edges s v
        = degAt nodes edges (s ++ [u]) v + (adjOf nodes edges u).count v :=
      degAt_append nodes edges s u hus v
    by_cases hcv : (adjOf nodes edges u).count v = 0
    · have : degAt nodes edges s v = 0 := by omega
      have hv := inv.complete v hvdecl this
      rcases List.mem_append.1 hv with h | h
      · exact List.mem_append.2 (Or.inl (by simp [h]))
      · rcases List.mem_cons.1 h with h2 | h2
        · exact List.mem_append.2 (Or.inl (by simp [h2]))
        · exact List.mem_append.2 (Or.inr ((hmem v).2 (Or.inl h2)))
    · have hva : v ∈ adjOf nodes edges u := by
        by_contra hna
        exact hcv (List.count_eq_zero.2 hna)
      have : d v = (adjOf nodes edges u).count v := by
        rw [inv.degEq v]
        omega
      exact List.mem_append.2 (Or.inr ((hmem v).2 (Or.inr ⟨hva, this⟩)))
  · intro e he htgt
    rcases List.mem_append.1 htgt with h | h
    · exact listBefore_append_right (inv.topo e he h)
    · have htu : e.target = u := by simpa using h
      have : degAt nodes edges s e.target = 0 := by
        rw [htu]
        exact inv.degZero u (by simp)
      have hsrc : e.source ∈ s := (degAt_zero_iff nodes edges s e.target).1 this e he rfl
      rw [htu]
      exact listBefore_snoc hsrc

theorem declaredIds_nodup (nodes : List NodeDef) : (declaredIds nodes).Nodup :=
  jsDedup_nodup _

theorem nodup_subset_length {s t : List String} (hs : s.Nodup) (hsub : ∀ x ∈ s, x ∈ t) :
    s.length ≤ t.length := by
  classical
  calc s.length = s.toFinset.card := (List.toFinset_card_of_nodup hs).symm
    _ ≤ t.toFinset.card := Finset.card_le_card (fun x hx =>
        List.mem_toFinset.2 (hsub x (List.mem_toFinset.1 hx)))
    _ ≤ t.length := List.toFinset_card_le t

theorem kahnLoop_spec (nodes : List NodeDef) (edges : List EdgeDef) :
    ∀ (fuel : Nat) (d : String → Nat) (q s : List String),
    KahnInv nodes edges d q s →
    (declaredIds nodes).length ≤ fuel + s.length →
    ∃ d2, KahnInv nodes edges d2 []
      (kahnLoop (adjOf nodes edges) fuel d q s) := by
  intro fuel
  induction fuel with
  | zero =>
    intro d q s inv hfuel
    have hq : q = [] := by
      have hnodup := inv.nodup
      rw [List.nodup_append] at hnodup
      obtain ⟨hsnd, hqnd, hdisj⟩ := hnodup
      have hslen : (declaredIds nodes).length ≤ s.length := by omega
      have hsub : ∀ x ∈ s, x ∈ declaredIds nodes :=
        fun x hx => inv.declared x (by simp [hx])
      -- s exhausts the declared ids
      have hall : ∀ x ∈ declaredIds nodes, x ∈ s := by
        intro x hx
        by_contra hxs
        have hsub2 : ∀ y ∈ x :: s, y ∈ declaredIds nodes := by
          intro y hy
          rcases List.mem_cons.1 hy with h | h
          · exact h ▸ hx
          · exact hsub y h
        have : (x :: s).length ≤ (declaredIds nodes).length :=
          nodup_subset_length (List.nodup_cons.2 ⟨hxs, hsnd⟩) hsub2
        simp at this
        omega
      rcases q with _ | ⟨a, q2⟩
      · rfl
      · exfalso
        have ha := inv.declared a (by simp)
        exact hdisj (hall a ha) (by simp)
    rw [hq]
    exact ⟨d, hq ▸ inv⟩
  | succ fuel ih =>
    intro d q s inv hfuel
    rcases q with _ | ⟨u, qs⟩
    · exact ⟨d, inv⟩
    · rw [kahnLoop]
      have inv2 := kahnInv_step nodes edges d u qs s inv
      have hlen : (declaredIds nodes).length ≤ fuel + (s ++ [u]).length := by
        simp only [List.length_append, List.length_singleton]
        omega
      exact ih _ _ _ inv2 hlen

theorem kahnInv_init (nodes : List NodeDef) (edges : List EdgeDef) :
    KahnInv nodes edges (degAt nodes edges [])
      ((declaredIds nodes).filter (fun v => decide (degAt nodes edges [] v = 0))) [] := by
  refine ⟨?_, ?_, fun _ => rfl, ?_, ?_, ?_⟩
  · simpa using List.Nodup.filter _ (declaredIds_nodup nodes)
  · intro x hx
    simp only [List.nil_append, List.mem_filter] at hx
    exact hx.1
  · intro v hv
    simp only [List.nil_append, List.mem_filter, decide_eq_true_eq] at hv
    exact hv.2
  · intro v hvdecl hvdeg
    simp only [List.nil_append, List.mem_filter, decide_eq_true_eq]
    exact ⟨hvdecl, hvdeg⟩
  · intro e _ htgt
    simp at htgt

theorem topoSort_run (nodes : List NodeDef) (edges : List EdgeDef) :
    ∃ l d2, KahnInv nodes edges d2 [] l ∧
      topoSort nodes edges =
        (if l.length = (declaredIds nodes).length then .ok l
         else .error "Pipeline contains a cycle") := by
  obtain ⟨d2, hinv⟩ := kahnLoop_spec nodes edges ((declaredIds nodes).length + 1)
    (degAt nodes edges [])
    ((declaredIds nodes).filter (fun v => decide (degAt nodes edges [] v = 0))) []
    (kahnInv_init nodes edges) (by simp)
  exact ⟨_, d2, hinv, rfl⟩

theorem indexOf_prefix {a : String} :
    ∀ (l1 t : List String), a ∉ l1 → (l1 ++ a :: t).indexOf a = l1.length := by
  intro l1
  induction l1 with
  | nil => intro t _; simp
  | cons x xs ih =>
    intro t hx
    have hxa : x ≠ a := by
      intro h
      exact hx (by simp [h])
    have hmem : a ∉ xs := fun h => hx (by simp [h])
    simp only [List.cons_append, List.length_cons]
    rw [List.indexOf_cons_ne _ (by simpa using hxa), ih t hmem]

theorem listBefore_indexOf {a b : String} {l : List String} (hnd : l.Nodup)
    (h : listBefore a b l) : l.indexOf a < l.indexOf b := by
  obtain ⟨l1, l2, l3, rfl⟩ := h
  have hnd2 := hnd
  rw [List.nodup_append] at hnd2
  obtain ⟨hnd1, hndc, hdisj⟩ := hnd2
  have hna : a ∉ l1 := fun hm => hdisj hm (by simp)
  have hnb1 : b ∉ l1 := fun hm => hdisj hm (by simp)
  have hcons := List.nodup_cons.1 hndc
  have hab : a ≠ b := by
    intro hEq
    exact hcons.1 (by simp [hEq])
  have hnb2 : b ∉ l2 := by
    have := hcons.2
    rw [List.nodup_append] at this
    intro hm
    exact this.2.2 hm (by simp)
  have hia : (l1 ++ a :: (l2 ++ b :: l3)).indexOf a = l1.length := indexOf_prefix l1 _ hna
  have hib : (l1 ++ a :: (l2 ++ b :: l3)).indexOf b
      = (l1 ++ a :: l2).length := by
    have hrw : l1 ++ a :: (l2 ++ b :: l3) = (l1 ++ a :: l2) ++ b :: l3 := by simp
    rw [hrw]
    refine indexOf_prefix (l1 ++ a :: l2) l3 ?_
    intro hm
    rcases List.mem_append.1 hm with hm | hm
    · exact hnb1 hm
    · rcases List.mem_cons.1 hm with hm | hm
      · exact hab hm.symm
      · exact hnb2 hm
  rw [hia, hib]
  simp only [List.length_append, List.length_cons]
  omega

theorem cycle_of_predecessors {rel : String → String → Prop} (R : List String)
    (hne : R ≠ []) (h : ∀ v ∈ R, ∃ u, u ∈ R ∧ rel u v) :
    ∃ c, Relation.TransGen rel c c := by
  classical
  let g : String → String := fun v => if hv : ∃ u, u ∈ R ∧ rel u v then hv.choose else v
  have hg1 : ∀ v ∈ R, g v ∈ R := by
    intro v hv
    have hex := h v hv
    simp only [g, dif_pos hex]
    exact hex.choose_spec.1
  have hg2 : ∀ v ∈ R, rel (g v) v := by
    intro v hv
    have hex := h v hv
    simp only [g, dif_pos hex]
    exact hex.choose_spec.2
  obtain ⟨r0, hr0⟩ : ∃ r, r ∈ R := by
    cases R with
    | nil => exact absurd rfl hne
    | cons x xs => exact ⟨x, by simp⟩
  let seq : Nat → String := fun n => g^[n] r0
  have hseq : ∀ n, seq n ∈ R := by
    intro n
    induction n with
    | zero => simpa [seq]
    | succ k ih =>
      have : seq (k + 1) = g (seq k) := Function.iterate_succ_apply' g k r0
      rw [this]
      exact hg1 _ ih
  have hrel : ∀ n, rel (seq (n + 1)) (seq n) := by
    intro n
    have : seq (n + 1) = g (seq n) := Function.iterate_succ_apply' g n r0
    rw [this]
    exact hg2 _ (hseq n)
  have hchain : ∀ m n, n < m → Relation.TransGen rel (seq m) (seq n) := by
    intro m
    induction m with
    | zero => omega
    | succ k ih =>
      intro n hn
      rcases Nat.lt_succ_iff_lt_or_eq.1 hn with hlt | hEq
      · exact Relation.TransGen.head (hrel k) (ih n hlt)
      · rw [hEq]
        exact Relation.TransGen.single (hrel k)
  have hcard : R.toFinset.card <
      (Finset.univ : Finset (Fin (R.toFinset.card + 1))).card := by simp
  obtain ⟨i, _, j, _, hij, hEq⟩ :=
    Finset.exists_ne_map_eq_of_card_lt_of_maps_to hcard
      (f := fun i : Fin (R.toFinset.card + 1) => seq i)
      (fun i _ => List.mem_toFinset.2 (hseq i))
  rcases Nat.lt_or_ge i.val j.val with hlt | hge
  · exact ⟨seq j, hEq ▸ hchain j i hlt⟩
  · have hlt2 : j.val < i.val := by
      rcases Nat.lt_or_ge j.val i.val with h2 | h2
      · exact h2
      · exact absurd (Fin.ext (by omega)) hij
    exact ⟨seq i, hEq ▸ hchain i j hlt2⟩

theorem topoSort_ok_facts (nodes : List NodeDef) (edges : List EdgeDef) (l : List String)
    (h : topoSort nodes edges = .ok l) :
    l.Nodup ∧ (∀ x, x ∈ l ↔ x ∈ declaredIds nodes) ∧
      l.Perm (declaredIds nodes) ∧
      (∀ e ∈ validEdges nodes edges, listBefore e.source e.target l) := by
  obtain ⟨l0, d2, inv, hts⟩ := topoSort_run nodes edges
  rw [hts] at h
  by_cases hlen : l0.length = (declaredIds nodes).length
  · rw [if_pos hlen] at h
    injection h with h
    subst h
    have hnd : l0.Nodup := by simpa using inv.nodup
    have hsub : ∀ x ∈ l0, x ∈ declaredIds nodes :=
      fun x hx => inv.declared x (by simpa using hx)
    have hmem : ∀ x, x ∈ l0 ↔ x ∈ declaredIds nodes := by
      intro x
      refine ⟨hsub x, ?_⟩
      intro hx
      by_contra hxl
      have hsub2 : ∀ y ∈ x :: l0, y ∈ declaredIds nodes := by
        intro y hy
        rcases List.mem_cons.1 hy with h2 | h2
        · exact h2 ▸ hx
        · exact hsub y h2
      have := nodup_subset_length (List.nodup_cons.2 ⟨hxl, hnd⟩) hsub2
      simp only [List.length_cons] at this
      omega
    have hperm : l0.Perm (declaredIds nodes) :=
      (List.perm_ext_iff_of_nodup hnd (declaredIds_nodup nodes)).2 hmem
    refine ⟨hnd, hmem, hperm, ?_⟩
    intro e he
    have htgt : e.target ∈ l0 := (hmem e.target).2 (mem_validEdges_target nodes edges e he)
    simpa using inv.topo e he (by simpa using htgt)
  · rw [if_neg hlen] at h
    exact absurd h (by simp)

theorem topoSort_ok_not_hasCycle (nodes : List NodeDef) (edges : List EdgeDef)
    (l : List String) (h : topoSort nodes edges = .ok l) : ¬ HasCycle nodes edges := by
  obtain ⟨hnd, _, _, hbefore⟩ := topoSort_ok_facts nodes edges l h
  rintro ⟨c, hc⟩
  have hmono : ∀ x y, Relation.TransGen (edgeRel nodes edges) x y →
      l.indexOf x < l.indexOf y := by
    intro x y hxy
    induction hxy with
    | single hstep =>
      obtain ⟨e, he, hs, ht⟩ := hstep
      exact listBefore_indexOf hnd (hs ▸ ht ▸ hbefore e he)
    | tail hxy hstep ih =>
      obtain ⟨e, he, hs, ht⟩ := hstep
      exact lt_trans ih (listBefore_indexOf hnd (hs ▸ ht ▸ hbefore e he))
  exact lt_irrefl _ (hmono c c hc)

theorem topoSort_error_hasCycle (nodes : List NodeDef) (edges : List EdgeDef)
    (h : ∀ l, topoSort nodes edges ≠ .ok l) : HasCycle nodes edges := by
  obtain ⟨l0, d2, inv, hts⟩ := topoSort_run nodes edges
  by_cases hlen : l0.length = (declaredIds nodes).length
  · rw [hts, if_pos hlen] at h
    exact absurd rfl (h l0)
  · -- the stuck set: declared ids never popped
    have hnd : l0.Nodup := by simpa using inv.nodup
    have hsub : ∀ x ∈ l0, x ∈ declaredIds nodes :=
      fun x hx => inv.declared x (by simpa using hx)
    have hex : ∃ x ∈ declaredIds nodes, x ∉ l0 := by
      by_contra hall
      push_neg at hall
      have h1 := nodup_subset_length hnd hsub
      have h2 := nodup_subset_length (declaredIds_nodup nodes) hall
      omega
    set R : List String :=
      (declaredIds nodes).filter (fun v => decide (v ∉ l0)) with hR
    have hRne : R ≠ [] := by
      obtain ⟨x, hx1, hx2⟩ := hex
      intro hnil
      have : x ∈ R := by
        rw [hR, List.mem_filter]
        exact ⟨hx1, by simpa using hx2⟩
      rw [hnil] at this
      simp at this
    have hpred : ∀ v ∈ R, ∃ u, u ∈ R ∧ edgeRel nodes edges u v := by
      intro v hv
      rw [hR, List.mem_filter] at hv
      obtain ⟨hvdecl, hvl⟩ := hv
      have hvl2 : v ∉ l0 := by simpa using hvl
      have hdeg : degAt nodes edges l0 v ≠ 0 := by
        intro h0
        exact hvl2 (by simpa using inv.complete v hvdecl h0)
      have hpos : 0 < (validEdges nodes edges).countP
          (fun e => decide (e.target = v) && decide (e.source ∉ l0)) := by
        rw [degAt] at hdeg
        omega
      obtain ⟨e, he, hp⟩ := List.countP_pos_iff.1 hpos
      simp only [Bool.and_eq_true, decide_eq_true_eq] at hp
      refine ⟨e.source, ?_, ⟨e, he, rfl, hp.1⟩⟩
      rw [hR, List.mem_filter]
      exact ⟨mem_validEdges_source nodes edges e he, by simpa using hp.2⟩
    exact cycle_of_predecessors R hRne hpred

theorem hasCycle_topoSort_error (nodes : List NodeDef) (edges : List EdgeDef)
    (h : HasCycle nodes edges) :
    topoSort nodes edges = .error "Pipeline contains a cycle" := by
  rcases hts : topoSort nodes edges with m | l
  · obtain ⟨l0, d2, inv, hrun⟩ := topoSort_run nodes edges
    rw [hts] at hrun
    by_cases hlen : l0.length = (declaredIds nodes).length
    · rw [if_pos hlen] at hrun
      exact absurd hrun (by simp)
    · rw [if_neg hlen] at hrun
      injection hrun with hrun
      rw [hrun]
  · exact absurd h (topoSort_ok_not_hasCycle nodes edges l hts)

/-! ### Claim C1 -/

/-- Acyclic two-node pipeline used as a concrete instance. -/
def nodesW1 : List NodeDef :=
  [⟨"a", .input, .nil⟩, ⟨"b", .output, .nil⟩]

/-- The single edge `a → b` of the acyclic instance. -/
def edgesW1 : List EdgeDef :=
  [⟨"e1", "a", "output", "b", "input"⟩]

/-- Two-node pipeline with edges `a → b` and `b → a` (a cycle). -/
def nodesW2 : List NodeDef :=
  [⟨"a", .input, .nil⟩, ⟨"b", .output, .nil⟩]

/-- The cyclic edge set `a → b`, `b → a`. -/
def edgesW2 : List EdgeDef :=
  [⟨"e1", "a", "output", "b", "input"⟩, ⟨"e2", "b", "output", "a", "input"⟩]

theorem validEdgesW1 : validEdges nodesW1 edgesW1 = edgesW1 := rfl

theorem noCycleW1 : ¬ HasCycle nodesW1 edgesW1 := by
  rintro ⟨c, hc⟩
  have hstep : ∀ u v, edgeRel nodesW1 edgesW1 u v → u = "a" ∧ v = "b" := by
    rintro u v ⟨e, he, hs, ht⟩
    rw [validEdgesW1] at he
    have he2 : e = (⟨"e1", "a", "output", "b", "input"⟩ : EdgeDef) := by
      simpa [edgesW1] using he
    rw [he2] at hs ht
    exact ⟨hs.symm, ht.symm⟩
  have hall : ∀ x y, Relation.TransGen (edgeRel nodesW1 edgesW1) x y →
      x = "a" ∧ y = "b" := by
    intro x y h
    induction h with
    | single h => exact hstep _ _ h
    | tail _ h2 ih => exact ⟨ih.1, (hstep _ _ h2).2⟩
  obtain ⟨h1, h2⟩ := hall c c hc
  rw [h1] at h2
  exact absurd h2 (by decide)

theorem cycleW2 : HasCycle nodesW2 edgesW2 := by
  refine ⟨"a", ?_⟩
  have hVE : validEdges nodesW2 edgesW2 = edgesW2 := rfl
  have h1 : edgeRel nodesW2 edgesW2 "a" "b" := by
    refine ⟨⟨"e1", "a", "output", "b", "input"⟩, ?_, rfl, rfl⟩
    rw [hVE]
    simp [edgesW2]
  have h2 : edgeRel nodesW2 edgesW2 "b" "a" := by
    refine ⟨⟨"e2", "b", "output", "a", "input"⟩, ?_, rfl, rfl⟩
    rw [hVE]
    simp [edgesW2]
  exact Relation.TransGen.head h1 (Relation.TransGen.single h2)

/-- C1.  For every pipeline whose graph (restricted to edges between declared
node ids) is acyclic, `topoSort` returns a permutation of all declared node
ids in which the source of every declared edge appears before its target; for
every pipeline with a cycle among declared nodes it throws
`"Pipeline contains a cycle"`. -/
theorem topoSort_correct (nodes : List NodeDef) (edges : List EdgeDef) :
    (¬ HasCycle nodes edges →
      ∃ l, topoSort nodes edges = .ok l ∧ l.Perm (declaredIds nodes) ∧
        ∀ e ∈ validEdges nodes edges, listBefore e.source e.target l) ∧
    (HasCycle nodes edges →
      topoSort nodes edges = .error "Pipeline contains a cycle") := by
  constructor
  · intro hnc
    rcases hts : topoSort nodes edges with m | l
    · exact absurd (topoSort_error_hasCycle nodes edges (fun l h => by rw [hts] at h; cases h))
        hnc
    · obtain ⟨_, _, hperm, hbefore⟩ := topoSort_ok_facts nodes edges l hts
      exact ⟨l, rfl, hperm, hbefore⟩
  · exact hasCycle_topoSort_error nodes edges

/-- Witness for C1: the acyclic instance sorts to a permutation respecting
its edge, and the cyclic instance throws. -/
theorem topoSort_correct_witness :
    (∃ l, topoSort nodesW1 edgesW1 = .ok l ∧ l.Perm (declaredIds nodesW1) ∧
      ∀ e ∈ validEdges nodesW1 edgesW1, listBefore e.source e.target l) ∧
    topoSort nodesW2 edgesW2 = .error "Pipeline contains a cycle" :=
  ⟨(topoSort_correct nodesW1 edgesW1).1 noCycleW1,
   (topoSort_correct nodesW2 edgesW2).2 cycleW2⟩

/-! ### Claim C9 -/

/-- C9.  Edges whose source or target is not a declared node id are skipped:
they contribute nothing to the valid edge set, the in-degree map, or the
adjacency map, `topoSort` is unchanged by adding them, and (when the declared
edges are acyclic) `topoSort` still returns a permutation of exactly the
declared node ids. -/
theorem topoSort_skips_undeclared_edges (nodes : List NodeDef)
    (edges bogus : List EdgeDef)
    (hbogus : ∀ e ∈ bogus,
      e.source ∉ declaredIds nodes ∨ e.target ∉ declaredIds nodes) :
    validEdges nodes (edges ++ bogus) = validEdges nodes edges ∧
    degAt nodes (edges ++ bogus) = degAt nodes edges ∧
    adjOf nodes (edges ++ bogus) = adjOf nodes edges ∧
    topoSort nodes (edges ++ bogus) = topoSort nodes edges ∧
    (¬ HasCycle nodes edges →
      ∃ l, topoSort nodes (edges ++ bogus) = .ok l ∧ l.Perm (declaredIds nodes)) := by
  have hVE : validEdges nodes (edges ++ bogus) = validEdges nodes edges := by
    rw [validEdges, validEdges, List.filter_append]
    have : bogus.filter (fun e =>
        decide (e.source ∈ declaredIds nodes) && decide (e.target ∈ declaredIds nodes))
        = [] := by
      rw [List.filter_eq_nil_iff]
      intro e he
      rcases hbogus e he with h | h
      · simp [h]
      · simp [h]
    rw [this, List.append_nil]
  have hDeg : degAt nodes (edges ++ bogus) = degAt nodes edges := by
    funext s v
    rw [degAt, degAt, hVE]
  have hAdj : adjOf nodes (edges ++ bogus) = adjOf nodes edges := by
    funext u
    rw [adjOf, adjOf, hVE]
  have hTS : topoSort nodes (edges ++ bogus) = topoSort nodes edges := by
    simp only [topoSort]
    rw [hDeg, hAdj]
  refine ⟨hVE, hDeg, hAdj, hTS, ?_⟩
  intro hnc
  rcases hts : topoSort nodes edges with m | l
  · exact absurd
      (topoSort_error_hasCycle nodes edges (fun l h => by rw [hts] at h; cases h)) hnc
  · obtain ⟨_, _, hperm, _⟩ := topoSort_ok_facts nodes edges l hts
    exact ⟨l, by rw [hTS, hts], hperm⟩

/-- Witness for C9: adding an edge onto the undeclared id `"zz"` leaves
`topoSort` unchanged and still yields a permutation of the declared ids. -/
theorem topoSort_skips_undeclared_edges_witness :
    topoSort nodesW1 (edgesW1 ++ [⟨"e9", "a", "output", "zz", "input"⟩])
        = topoSort nodesW1 edgesW1 ∧
    ∃ l, topoSort nodesW1 (edgesW1 ++ [⟨"e9", "a", "output", "zz", "input"⟩])
        = .ok l ∧ l.Perm (declaredIds nodesW1) := by
  have h := topoSort_skips_undeclared_edges nodesW1 edgesW1
    [⟨"e9", "a", "output", "zz", "input"⟩] (by decide)
  exact ⟨h.2.2.2.1, h.2.2.2.2 noCycleW1⟩

/-! ## Determinism of the cache key (claim C2) -/

theorem serFields_lookup (K : List String) :
    ∀ (fs : JsonFields) (k : String),
    List.lookup k (serFields K fs) = (lookupF k fs).map (serVal K)
  | .nil, k => by simp [serFields, lookupF]
  | .cons k2 v rest, k => by
    rw [serFields, lookupF]
    by_cases h : k2 = k
    · simp [List.lookup, h]
    · have hbeq : (k == k2) = false := by
        simp [BEq.beq]
        exact fun h2 => h h2.symm
      simp only [List.lookup, hbeq, if_neg h]
      exact serFields_lookup K rest k

theorem fieldKeys_lookup : ∀ (fs : JsonFields) (k : String),
    k ∈ fieldKeys fs ↔ lookupF k fs ≠ none
  | .nil, k => by simp [fieldKeys, lookupF]
  | .cons k2 v rest, k => by
    rw [fieldKeys, lookupF]
    by_cases h : k2 = k
    · simp [h]
    · have : ¬ k = k2 := fun h2 => h h2.symm
      simp only [List.mem_cons, if_neg h]
      rw [fieldKeys_lookup rest k]
      simp [this]

theorem sortKeys_sorted (l : List String) : (sortKeys l).Sorted (· ≤ ·) :=
  List.sorted_insertionSort (· ≤ ·) l

theorem sortKeys_eq_of_perm {l1 l2 : List String} (h : l1.Perm l2) :
    sortKeys l1 = sortKeys l2 := by
  refine List.eq_of_perm_of_sorted ?_ (sortKeys_sorted l1) (sortKeys_sorted l2)
  exact ((List.perm_insertionSort _ l1).trans h).trans (List.perm_insertionSort _ l2).symm

theorem stringifyParams_congr (p p2 : JsonFields) (hnd : (fieldKeys p).Nodup)
    (hnd2 : (fieldKeys p2).Nodup) (hmap : ∀ k, lookupF k p = lookupF k p2) :
    stringifyParams p = stringifyParams p2 := by
  have hkeys : ∀ k, k ∈ fieldKeys p ↔ k ∈ fieldKeys p2 := by
    intro k
    rw [fieldKeys_lookup, fieldKeys_lookup, hmap k]
  have hperm : (fieldKeys p).Perm (fieldKeys p2) :=
    (List.perm_ext_iff_of_nodup hnd hnd2).2 hkeys
  have hK : sortKeys (fieldKeys p) = sortKeys (fieldKeys p2) := sortKeys_eq_of_perm hperm
  rw [stringifyParams, stringifyParams, hK, serVal, serVal]
  have hfun : (fun k => (List.lookup k (serFields (sortKeys (fieldKeys p2)) p)).map
        (fun sv => jsonQuote k ++ ":" ++ sv))
      = (fun k => (List.lookup k (serFields (sortKeys (fieldKeys p2)) p2)).map
        (fun sv => jsonQuote k ++ ":" ++ sv)) := by
    funext k
    rw [serFields_lookup, serFields_lookup, hmap k]
  rw [hfun]

theorem lookupF_fieldsList : ∀ (fs : JsonFields) (k : String),
    lookupF k fs = List.lookup k (fieldsList fs)
  | .nil, k => by simp [lookupF, fieldsList]
  | .cons k2 v rest, k => by
    rw [lookupF, fieldsList]
    by_cases h : k2 = k
    · simp [List.lookup, h]
    · have hbeq : (k == k2) = false := by
        simp [BEq.beq]
        exact fun h2 => h h2.symm
      simp only [List.lookup, hbeq, if_neg h]
      exact lookupF_fieldsList rest k

theorem fieldKeys_eq_map : ∀ (fs : JsonFields),
    fieldKeys fs = (fieldsList fs).map Prod.fst
  | .nil => by simp [fieldKeys, fieldsList]
  | .cons k v rest => by
    rw [fieldKeys, fieldsList]
    simp [fieldKeys_eq_map rest]

theorem lookup_perm {β : Type} {l1 l2 : List (String × β)} (h : l1.Perm l2)
    (hnd : (l1.map Prod.fst).Nodup) (k : String) :
    List.lookup k l1 = List.lookup k l2 := by
  induction h with
  | nil => rfl
  | cons x h2 ih =>
    simp only [List.map_cons, List.nodup_cons] at hnd
    by_cases hk : k = x.1
    · simp [List.lookup, hk]
    · have hbeq : (k == x.1) = false := by simpa using hk
      cases x with
      | mk a b => simp only [List.lookup, hbeq] at *; exact ih hnd.2
  | swap x y l =>
    simp only [List.map_cons, List.nodup_cons, List.mem_cons] at hnd
    have hxy : y.1 ≠ x.1 := fun h2 => hnd.1 (Or.inl h2)
    cases x with
    | mk a b =>
      cases y with
      | mk c d =>
        have hca : c ≠ a := hxy
        by_cases hk : k = c
        · have hbc : (k == c) = true := by simpa using hk
          have hba : (k == a) = false := by
            simp only [beq_eq_false_iff_ne, ne_eq]
            intro h2
            exact hca (by rw [← hk]; exact h2)
          simp [List.lookup, hbc, hba]
        · by_cases hk2 : k = a
          · have hba : (k == a) = true := by simpa using hk2
            have hbc : (k == c) = false := by simpa using hk
            simp [List.lookup, hba, hbc]
          · have hba : (k == a) = false := by simpa using hk2
            have hbc : (k == c) = false := by simpa using hk
            simp [List.lookup, hba, hbc]
  | trans h1 h2 ih1 ih2 =>
    rw [ih1 hnd]
    exact ih2 (((h1.map Prod.fst).nodup_iff).1 hnd)

/-- Params `{b: 1, a: 2}` (insertion order `b`, `a`). -/
def pReordA : JsonFields := .cons "b" (.num 1) (.cons "a" (.num 2) .nil)

/-- Params `{a: 2, b: 1}` (insertion order `a`, `b`). -/
def pReordB : JsonFields := .cons "a" (.num 2) (.cons "b" (.num 1) .nil)

/-- Params `{a: {b: 1}}`. -/
def pNest1 : JsonFields := .cons "a" (.obj (.cons "b" (.num 1) .nil)) .nil

/-- Params `{a: {c: 2}}`. -/
def pNest2 : JsonFields := .cons "a" (.obj (.cons "c" (.num 2) .nil)) .nil

/-- C2 (amended).  `computeCacheKey` is a function of the params as a map and
of the revision sequence: equal maps (with duplicate-free keys, as JavaScript
objects have) and equal revision lists give equal keys; in particular
reordering the params' keys never changes the key.  The converse implication
of the original claim is refuted by `computeCacheKey_not_injective`. -/
theorem computeCacheKey_deterministic (id0 : String) (p p2 : JsonFields)
    (revs revs2 : List Nat) :
    ((fieldKeys p).Nodup → (fieldKeys p2).Nodup →
      (∀ k, lookupF k p = lookupF k p2) → revs = revs2 →
      computeCacheKey id0 p revs = computeCacheKey id0 p2 revs2) ∧
    ((fieldKeys p).Nodup → (fieldsList p).Perm (fieldsList p2) →
      computeCacheKey id0 p revs = computeCacheKey id0 p2 revs) := by
  constructor
  · intro h1 h2 h3 h4
    rw [computeCacheKey, computeCacheKey, stringifyParams_congr p p2 h1 h2 h3, h4]
  · intro h1 hperm
    have hnd2 : (fieldKeys p2).Nodup := by
      rw [fieldKeys_eq_map] at h1 ⊢
      exact ((hperm.map Prod.fst).nodup_iff).1 h1
    have hmap : ∀ k, lookupF k p = lookupF k p2 := by
      intro k
      rw [lookupF_fieldsList, lookupF_fieldsList]
      refine lookup_perm hperm ?_ k
      rw [← fieldKeys_eq_map]
      exact h1
    rw [computeCacheKey, computeCacheKey, stringifyParams_congr p p2 h1 hnd2 hmap]

/-- Witness for C2: swapping the two keys of `{b: 1, a: 2}` leaves the cache
key unchanged. -/
theorem computeCacheKey_deterministic_witness :
    computeCacheKey "n" pReordA [3] = computeCacheKey "n" pReordB [3] ∧
    (fieldKeys pReordA).Nodup :=
  ⟨(computeCacheKey_deterministic "n" pReordA pReordB [3] [3]).2 (by decide)
      (List.Perm.swap ("a", JsonVal.num 2) ("b", JsonVal.num 1) []),
    by decide⟩

/-- Counterexample for C2 as stated: the params maps `{a: {b: 1}}` and
`{a: {c: 2}}` differ as maps but share one cache key, because the array
replacer (the sorted top-level keys) filters the keys of nested objects, so
both serialise as the string with an empty inner object. -/
theorem computeCacheKey_not_injective :
    computeCacheKey "n" pNest1 [5] = computeCacheKey "n" pNest2 [5] ∧
    ¬ (∀ k, lookupF k pNest1 = lookupF k pNest2) := by
  constructor
  · decide
  · intro h
    have h2 := h "a"
    simp only [pNest1, pNest2, lookupF, if_pos rfl] at h2
    injection h2 with h3
    injection h3 with h4
    injection h4 with hk hv hr
    exact absurd hk (by decide)

/-! ## JFA step schedule of the GPU outline path (claim C7)

`executeOutlineGpu` computes `numSteps = Math.ceil(Math.log2(maxDim))` and
`runJfaPass` starts at `stepSize = Math.pow(2, numSteps - 1)`, halving after
each iteration with `stepSize = Math.max(1, Math.floor(stepSize / 2))`.
`Math.ceil(Math.log2 n)` equals `Nat.clog 2 n` for every texture dimension
(`Math.log2` is exact on powers of two, and for other integers the float
error cannot cross an integer boundary). -/

/-- Model of `numSteps` in `executeOutlineGpu`. -/
def jfaNumSteps (width height : Nat) : Nat :=
  Nat.clog 2 (max width height)

/-- The step sizes taken by the `for (let i = 0; i < numSteps; i++)` loop,
from a given starting step. -/
def jfaStepsGo : Nat → Nat → List Nat
  | 0, _ => []
  | k + 1, s => s :: jfaStepsGo k (max 1 (s / 2))

/-- The full JFA step-size schedule of one direction. -/
def jfaStepSizes (width height : Nat) : List Nat :=
  jfaStepsGo (jfaNumSteps width height) (2 ^ (jfaNumSteps width height - 1))

theorem jfaStepsGo_pow : ∀ (k : Nat),
    jfaStepsGo (k + 1) (2 ^ k) = (List.range (k + 1)).map (fun i => 2 ^ (k - i)) := by
  intro k
  induction k with
  | zero => simp [jfaStepsGo]
  | succ m ih =>
    have hhalf : max 1 (2 ^ (m + 1) / 2) = 2 ^ m := by
      rw [Nat.pow_succ, Nat.mul_div_cancel _ (by omega : 0 < 2)]
      exact Nat.max_eq_right (Nat.one_le_two_pow)
    conv_rhs => rw [List.range_succ_eq_map]
    rw [jfaStepsGo, hhalf, ih]
    simp only [List.map_cons, List.map_map, Nat.sub_zero]
    congr 1
    refine List.map_congr_left ?_
    intro i _
    simp only [Function.comp_apply]
    congr 1
    omega

theorem clog2_five : Nat.clog 2 5 = 3 := by
  have h1 : Nat.clog 2 5 ≤ 3 :=
    (Nat.le_pow_iff_clog_le (by omega)).1 (by norm_num)
  have h2 : ¬ Nat.clog 2 5 ≤ 2 := by
    intro h
    have := (Nat.le_pow_iff_clog_le (by omega : (1 : Nat) < 2)).2 h
    norm_num at this
  omega

theorem jfaNumSteps_5_3 : jfaNumSteps 5 3 = 3 := by
  rw [jfaNumSteps]
  simpa using clog2_five

/-- C7.  For every input of dimensions `W × H` with `max(W, H) ≥ 2`, the GPU
outline path runs exactly `N = ⌈log₂(max(W, H))⌉` flood iterations per
direction, and the step size at iteration `i` is `2 ^ (N - 1 - i)`, so the
final iteration uses step 1. -/
theorem jfa_step_schedule (width height : Nat) (h2 : 2 ≤ max width height) :
    jfaNumSteps width height = Nat.clog 2 (max width height) ∧
    1 ≤ jfaNumSteps width height ∧
    (jfaStepSizes width height).length = jfaNumSteps width height ∧
    (∀ i, i < jfaNumSteps width height →
      (jfaStepSizes width height).getD i 0 = 2 ^ (jfaNumSteps width height - 1 - i)) ∧
    (jfaStepSizes width height).getLast? = some 1 := by
  have hpos : 1 ≤ jfaNumSteps width height :=
    Nat.clog_pos (by omega) h2
  obtain ⟨m, hm⟩ : ∃ m, jfaNumSteps width height = m + 1 :=
    ⟨jfaNumSteps width height - 1, by omega⟩
  have hlist : jfaStepSizes width height
      = (List.range (m + 1)).map (fun i => 2 ^ (m - i)) := by
    rw [jfaStepSizes, hm]
    simpa using jfaStepsGo_pow m
  refine ⟨rfl, hpos, ?_, ?_, ?_⟩
  · rw [hlist, hm]
    simp
  · intro i hi
    rw [hlist]
    rw [hm] at hi ⊢
    rw [List.getD_eq_getElem?_getD, List.getElem?_map,
      List.getElem?_range (by omega : i < m + 1)]
    simp only [Option.map_some', Option.getD_some]
    congr 1
  · rw [hlist]
    have hne : (List.range (m + 1)).map (fun i => 2 ^ (m - i)) ≠ [] := by
      simp
    rw [List.getLast?_eq_getLast _ hne, List.getLast_eq_getElem]
    simp only [List.length_map, List.length_range]
    rw [List.getElem_map, List.getElem_range]
    simp

/-- Witness for C7 at a concrete `5 × 3` input: `N = clog₂ 5 = 3`, the first
step is `2 ^ (N - 1)`, and the final step is 1. -/
theorem jfa_step_schedule_witness :
    jfaNumSteps 5 3 = Nat.clog 2 (max 5 3) ∧
    (jfaStepSizes 5 3).length = jfaNumSteps 5 3 ∧
    (jfaStepSizes 5 3).getD 0 0 = 2 ^ (jfaNumSteps 5 3 - 1 - 0) ∧
    (jfaStepSizes 5 3).getLast? = some 1 := by
  have h := jfa_step_schedule 5 3 (by decide)
  exact ⟨h.1, h.2.2.1, h.2.2.2.1 0 (by rw [jfaNumSteps_5_3]; omega), h.2.2.2.2⟩

/-! ## Image data and the Normalize executor (claim C8)

Pixels are modelled as `ImageData` is laid out: a flat list of RGBA bytes,
`data[(y * width + x) * 4 + c]`. -/

/-- A decoded image (`ImageData`): dimensions and flat RGBA bytes. -/
structure ImgData : Type where
  width : Nat
  height : Nat
  data : List Nat
deriving DecidableEq, Repr

/-- Model of `Math.round`: round half away from zero is `⌊x + 1/2⌋` for the
values involved here (JavaScript rounds half up). -/
def jround (x : ℚ) : Int := ⌊x + 1 / 2⌋

/-- Read a numeric param (`params.k as number`). -/
def getNumParam (fs : JsonFields) (k : String) : Option ℚ :=
  match lookupF k fs with
  | some (.num q) => some q
  | _ => none

/-- Read a string param (`params.k as string`). -/
def getStrParam (fs : JsonFields) (k : String) : Option String :=
  match lookupF k fs with
  | some (.str s) => some s
  | _ => none

/-- `(params.size as number) || 1024`: `0` (and a missing or non-numeric
value) falls back to the default.  Params are the non-negative integers the
UI produces, so the value is read off as a natural number. -/
def resolveNormalizeSize (fs : JsonFields) : Nat :=
  match getNumParam fs "size" with
  | some q => if q = 0 then 1024 else q.num.toNat
  | none => 1024

/-- `(params.padding as number) ?? 16`: only a missing value falls back. -/
def resolveNormalizePadding (fs : JsonFields) : ℚ :=
  match getNumParam fs "padding" with
  | some q => q
  | none => 16

/-- The bounding-box scan of `executeNormalize`: starting from
`(width, height, -1, -1)`, every pixel with alpha above 10 widens
`(minX, minY, maxX, maxY)`. -/
def bboxFold (img : ImgData) : Int × Int × Int × Int :=
  (List.range img.height).foldl (fun st y =>
    (List.range img.width).foldl (fun st2 x =>
      let alpha := img.data.getD ((y * img.width + x) * 4 + 3) 0
      if alpha > 10 then
        (min st2.1 (x : Int), min st2.2.1 (y : Int),
          max st2.2.2.1 (x : Int), max st2.2.2.2 (y : Int))
      else st2) st)
    ((img.width : Int), (img.height : Int), -1, -1)

/-- External canvas rasterisation capability: the crop/scale/centered
`drawImage` calls of `executeNormalize` delegate resampling to the platform.
The arguments are the input image, `minX`, `minY`, `cropW`, `cropH`,
`offsetX`, `offsetY`, `scaledW`, `scaledH`. -/
structure DrawCap : Type where
  draw : ImgData → Int → Int → Int → Int → Int → Int → Int → Int → List Nat

/-- Model of `executeNormalize` (`executors/normalize.ts`): scan the alpha
channel for the tight bounding box of pixels with alpha above 10; when none
exists return a blank (fully transparent, per the HTML canvas spec)
`size × size` canvas; otherwise crop, scale to fit `size - 2·padding`, and
draw centered via the platform capability. -/
def executeNormalize (cap : DrawCap) (input : ImgData) (params : JsonFields) : ImgData :=
  let size := resolveNormalizeSize params
  let padding := resolveNormalizePadding params
  match bboxFold input with
  | (minX, minY, maxX, maxY) =>
    if maxX < 0 ∨ maxY < 0 then
      { width := size, height := size, data := List.replicate (size * size * 4) 0 }
    else
      let cropW := maxX - minX + 1
      let cropH := maxY - minY + 1
      let available : ℚ := (size : ℚ) - 2 * padding
      let scale : ℚ := min (available / (cropW : ℚ)) (available / (cropH : ℚ))
      let scaledW := jround ((cropW : ℚ) * scale)
      let scaledH := jround ((cropH : ℚ) * scale)
      let offsetX := jround (((size : ℚ) - (scaledW : ℚ)) / 2)
      let offsetY := jround (((size : ℚ) - (scaledH : ℚ)) / 2)
      { width := size, height := size,
        data := cap.draw input minX minY cropW cropH offsetX offsetY scaledW scaledH }

theorem foldl_invariant {α β : Type} (P : α → Prop) (f : α → β → α) (l : List β)
    (init : α) (h0 : P init) (hstep : ∀ a b, b ∈ l → P a → P (f a b)) :
    P (l.foldl f init) := by
  induction l generalizing init with
  | nil => exact h0
  | cons x xs ih =>
    rw [List.foldl_cons]
    exact ih (f init x) (hstep init x (by simp) h0)
      (fun a b hb ha => hstep a b (by simp [hb]) ha)

theorem bboxFold_transparent (input : ImgData)
    (halpha : ∀ x y, x < input.width → y < input.height →
      input.data.getD ((y * input.width + x) * 4 + 3) 0 ≤ 10) :
    bboxFold input = ((input.width : Int), (input.height : Int), -1, -1) := by
  rw [bboxFold]
  refine foldl_invariant
    (fun st => st = ((input.width : Int), (input.height : Int), -1, -1)) _ _ _ rfl ?_
  intro st y hy hst
  rw [hst]
  refine foldl_invariant
    (fun st => st = ((input.width : Int), (input.height : Int), -1, -1)) _ _ _ rfl ?_
  intro st2 x hx hst2
  rw [hst2]
  have hxw : x < input.width := List.mem_range.1 hx
  have hyh : y < input.height := List.mem_range.1 hy
  have := halpha x y hxw hyh
  simp only []
  rw [if_neg (by omega)]

/-- C8 (amended).  Feeding `executeNormalize` an image in which no pixel's
alpha exceeds the 10/255 threshold yields a fully transparent square frame
whose side is the resolved `size` param — the param itself when it is a
nonzero number, and the default 1024 when it is 0 or missing (the `|| 1024`
coercion). -/
theorem executeNormalize_transparent (cap : DrawCap) (input : ImgData)
    (params : JsonFields)
    (halpha : ∀ x y, x < input.width → y < input.height →
      input.data.getD ((y * input.width + x) * 4 + 3) 0 ≤ 10) :
    executeNormalize cap input params =
      { width := resolveNormalizeSize params, height := resolveNormalizeSize params,
        data := List.replicate
          (resolveNormalizeSize params * resolveNormalizeSize params * 4) 0 } := by
  rw [executeNormalize, bboxFold_transparent input halpha]
  simp

/-- Witness for C8: a fully transparent 1×1 image with `size = 2` normalises
to a fully transparent 2×2 frame. -/
theorem executeNormalize_transparent_witness :
    executeNormalize ⟨fun _ _ _ _ _ _ _ _ _ => []⟩ ⟨1, 1, [0, 0, 0, 0]⟩
        (.cons "size" (.num 2) .nil)
      = ⟨2, 2, List.replicate 16 0⟩ := by
  have h := executeNormalize_transparent ⟨fun _ _ _ _ _ _ _ _ _ => []⟩
    ⟨1, 1, [0, 0, 0, 0]⟩ (.cons "size" (.num 2) .nil)
    (by intro x y hx hy; interval_cases x; interval_cases y; decide)
  rw [h]
  decide

/-- Counterexample for C8 as stated: with the `size` param set to the number
0, the output frame is 1024×1024 (the `|| 1024` default), not `size × size`. -/
theorem executeNormalize_size_zero_counterexample :
    getNumParam (JsonFields.cons "size" (.num 0) .nil) "size" = some 0 ∧
    (executeNormalize ⟨fun _ _ _ _ _ _ _ _ _ => []⟩ ⟨1, 1, [0, 0, 0, 0]⟩
        (.cons "size" (.num 0) .nil)).width = 1024 := by
  constructor
  · rfl
  · rfl

/-! ## The Outline executor's CPU fallback (claim C4)

`executeOutline` resolves its params — note `(params.thickness as number) || 4`
treats a thickness of `0` as unset — and, with no GPU device, runs the
chamfer-distance canvas fallback `executeOutlineCanvas`. -/

/-- The resolved outline options (`OutlineOpts` minus the GPU-only
`quality`). -/
structure OutlineOpts : Type where
  thickness : ℚ
  r : ℚ
  g : ℚ
  b : ℚ
  opacity : ℚ
  positionValue : ℚ
  threshold : ℚ

/-- Value of one hexadecimal digit (`parseInt(-, 16)` on a digit). -/
def hexDigit (c : Char) : Nat :=
  if '0' ≤ c ∧ c ≤ '9' then c.toNat - 48
  else if 'a' ≤ c ∧ c ≤ 'f' then c.toNat - 87
  else if 'A' ≤ c ∧ c ≤ 'F' then c.toNat - 55
  else 0

/-- `parseInt(color.slice(i, i+2), 16)` for a well-formed `#rrggbb` string. -/
def hexPair (s : String) (i : Nat) : Nat :=
  16 * hexDigit (s.data.getD i '0') + hexDigit (s.data.getD (i + 1) '0')

/-- Param resolution at the top of `executeOutline`:
`thickness || 4`, `color || '#ffffff'`, `opacity ?? 1`,
`position === 'outside' ? 1 : position === 'center' ? 0.5 : 0`,
`threshold ?? 0`. -/
def resolveOutlineOpts (params : JsonFields) : OutlineOpts :=
  let thickness : ℚ :=
    match getNumParam params "thickness" with
    | some q => if q = 0 then 4 else q
    | none => 4
  let color : String :=
    match getStrParam params "color" with
    | some s => if s = "" then "#ffffff" else s
    | none => "#ffffff"
  let position : String :=
    match getStrParam params "position" with
    | some s => if s = "" then "outside" else s
    | none => "outside"
  { thickness := thickness
    r := (hexPair color 1 : ℚ) / 255
    g := (hexPair color 3 : ℚ) / 255
    b := (hexPair color 5 : ℚ) / 255
    opacity := (getNumParam params "opacity").getD 1
    positionValue := if position = "outside" then 1 else if position = "center" then 1 / 2 else 0
    threshold := (getNumParam params "threshold").getD 0 }

/-- The diagonal chamfer weight, the literal `1.414`. -/
def chamferW : ℚ := 1414 / 1000

/-- The sentinel `1e10` used to initialise the distance fields. -/
def outlineBig : ℚ := 10 ^ 10

/-- One chamfer relaxation:
`dist[idx] = Math.min(dist[idx], dist[n1] + 1.414, dist[n2] + 1, dist[n3] + 1.414, dist[n4] + 1)`. -/
def chamferUpd (st : Nat → ℚ) (idx n1 n2 n3 n4 : Nat) : Nat → ℚ :=
  fun j =>
    if j = idx then
      min (st idx)
        (min (st n1 + chamferW) (min (st n2 + 1) (min (st n3 + chamferW) (st n4 + 1))))
    else st j

/-- The forward chamfer pass: `y` from 1 to `height - 2`, `x` from 1 to
`width - 2`, relaxing from the upper/left neighbors. -/
def chamferFwd (w h : Nat) (d : Nat → ℚ) : Nat → ℚ :=
  (List.range' 1 (h - 2)).foldl (fun st y =>
    (List.range' 1 (w - 2)).foldl (fun st2 x =>
      chamferUpd st2 (y * w + x)
        ((y - 1) * w + (x - 1)) ((y - 1) * w + x) ((y - 1) * w + (x + 1))
        (y * w + (x - 1))) st) d

/-- The backward chamfer pass: `y` from `height - 2` down to 1, `x` from
`width - 2` down to 1, relaxing from the lower/right neighbors. -/
def chamferBwd (w h : Nat) (d : Nat → ℚ) : Nat → ℚ :=
  ((List.range' 1 (h - 2)).reverse).foldl (fun st y =>
    ((List.range' 1 (w - 2)).reverse).foldl (fun st2 x =>
      chamferUpd st2 (y * w + x)
        ((y + 1) * w + (x + 1)) ((y + 1) * w + x) ((y + 1) * w + (x - 1))
        (y * w + (x + 1))) st) d

/-- Model of `chamferDistance` (two-pass, in place). -/
def chamferDistance (w h : Nat) (d : Nat → ℚ) : Nat → ℚ :=
  chamferBwd w h (chamferFwd w h d)

/-- Model of the GLSL-style `smoothstep` helper. -/
def smoothstep (e0 e1 x : ℚ) : ℚ :=
  let t := max 0 (min 1 ((x - e0) / (e1 - e0)))
  t * t * (3 - 2 * t)

/-- The alpha mask `alpha[i] = src[i*4+3] / 255`. -/
def alphaMask (input : ImgData) (i : Nat) : ℚ :=
  (input.data.getD (i * 4 + 3) 0 : ℚ) / 255

/-- Outer-distance seeds: `0` where `alpha > 0.1`, else `1e10`. -/
def outerInit (input : ImgData) : Nat → ℚ :=
  fun i => if alphaMask input i > 1 / 10 then 0 else outlineBig

/-- Inner-distance seeds: `0` where `alpha ≤ 0.1`, else `1e10`. -/
def innerInit (input : ImgData) : Nat → ℚ :=
  fun i => if alphaMask input i > 1 / 10 then outlineBig else 0

/-- Clamped byte store (`Uint8ClampedArray` assignment of an integer). -/
def clampByte (v : Int) : Nat := (min 255 (max 0 v)).toNat

/-- One output channel of the composite loop of `executeOutlineCanvas`
(channel `c` of pixel `i`). -/
def outlineChannel (input : ImgData) (opts : OutlineOpts)
    (outerDist innerDist : Nat → ℚ) (i c : Nat) : Nat :=
  let isInside := alphaMask input i > 1 / 10
  let signedDist := (if isInside then -(innerDist i) else outerDist i) + opts.threshold
  let innerEdge := opts.thickness * opts.positionValue
  let outerEdge := opts.thickness * (1 - opts.positionValue)
  let low := -outerEdge
  let high := innerEdge
  let outlineAlpha : ℚ :=
    if signedDist ≥ low - 1 / 2 ∧ signedDist ≤ high + 1 / 2 then
      smoothstep (low - 1 / 2) (low + 1 / 2) signedDist *
        (1 - smoothstep (high - 1 / 2) (high + 1 / 2) signedDist)
    else 0
  let blendAlpha := outlineAlpha * opts.opacity
  let origR : ℚ := (input.data.getD (i * 4) 0 : ℚ)
  let origG : ℚ := (input.data.getD (i * 4 + 1) 0 : ℚ)
  let origB : ℚ := (input.data.getD (i * 4 + 2) 0 : ℚ)
  let origA : ℚ := (input.data.getD (i * 4 + 3) 0 : ℚ) / 255
  if c = 0 then clampByte (jround (origR * (1 - blendAlpha) + opts.r * 255 * blendAlpha))
  else if c = 1 then clampByte (jround (origG * (1 - blendAlpha) + opts.g * 255 * blendAlpha))
  else if c = 2 then clampByte (jround (origB * (1 - blendAlpha) + opts.b * 255 * blendAlpha))
  else clampByte (jround (max origA blendAlpha * 255))

/-- Model of `executeOutlineCanvas` (chamfer fallback): distance fields from
foreground and background seeds, then the smoothstep composite, pixel by
pixel. -/
def executeOutlineCanvas (input : ImgData) (opts : OutlineOpts) : ImgData :=
  { width := input.width
    height := input.height
    data := (List.range (input.width * input.height * 4)).map (fun n =>
      outlineChannel input opts
        (chamferDistance input.width input.height (outerInit input))
        (chamferDistance input.width input.height (innerInit input))
        (n / 4) (n % 4)) }

/-- Model of `executeOutline` with `ctx.gpuDevice = null`: resolve params and
run the canvas fallback. -/
def executeOutlineNoGpu (input : ImgData) (params : JsonFields) : ImgData :=
  executeOutlineCanvas input (resolveOutlineOpts params)

/-- The invariant of the chamfer sweeps: seeds stay at 0, every other cell is
at least 1 (the initial sentinel is huge and every relaxation adds at least
the orthogonal weight 1 to a non-negative neighbor). -/
def ChamferInv (seed : Nat → Prop) (d : Nat → ℚ) : Prop :=
  ∀ i, (seed i → d i = 0) ∧ (¬ seed i → 1 ≤ d i)

theorem chamferW_ge_one : (1 : ℚ) ≤ chamferW := by
  rw [chamferW]
  norm_num

theorem chamferInv_nonneg {seed : Nat → Prop} {d : Nat → ℚ} (h : ChamferInv seed d)
    (i : Nat) : 0 ≤ d i := by
  by_cases hs : seed i
  · rw [(h i).1 hs]
  · linarith [(h i).2 hs]

theorem chamferUpd_inv {seed : Nat → Prop} {st : Nat → ℚ} (h : ChamferInv seed st)
    (idx n1 n2 n3 n4 : Nat) : ChamferInv seed (chamferUpd st idx n1 n2 n3 n4) := by
  have hW := chamferW_ge_one
  have h1 : (1 : ℚ) ≤ st n1 + chamferW := by linarith [chamferInv_nonneg h n1]
  have h2 : (1 : ℚ) ≤ st n2 + 1 := by linarith [chamferInv_nonneg h n2]
  have h3 : (1 : ℚ) ≤ st n3 + chamferW := by linarith [chamferInv_nonneg h n3]
  have h4 : (1 : ℚ) ≤ st n4 + 1 := by linarith [chamferInv_nonneg h n4]
  intro i
  constructor
  · intro hs
    rw [chamferUpd]
    by_cases hi : i = idx
    · rw [if_pos hi]
      have h0 : st idx = 0 := (h idx).1 (hi ▸ hs)
      rw [h0]
      exact min_eq_left (le_min (by linarith) (le_min (by linarith) (le_min (by linarith)
        (by linarith))))
    · rw [if_neg hi]
      exact (h i).1 hs
  · intro hs
    rw [chamferUpd]
    by_cases hi : i = idx
    · rw [if_pos hi]
      exact le_min ((h idx).2 (hi ▸ hs)) (le_min h1 (le_min h2 (le_min h3 h4)))
    · rw [if_neg hi]
      exact (h i).2 hs

theorem chamferFwd_inv (w h : Nat) {seed : Nat → Prop} {d : Nat → ℚ}
    (hd : ChamferInv seed d) : ChamferInv seed (chamferFwd w h d) := by
  rw [chamferFwd]
  refine foldl_invariant (ChamferInv seed) _ _ _ hd ?_
  intro st y _ hst
  refine foldl_invariant (ChamferInv seed) _ _ _ hst ?_
  intro st2 x _ hst2
  exact chamferUpd_inv hst2 _ _ _ _ _

theorem chamferBwd_inv (w h : Nat) {seed : Nat → Prop} {d : Nat → ℚ}
    (hd : ChamferInv seed d) : ChamferInv seed (chamferBwd w h d) := by
  rw [chamferBwd]
  refine foldl_invariant (ChamferInv seed) _ _ _ hd ?_
  intro st y _ hst
  refine foldl_invariant (ChamferInv seed) _ _ _ hst ?_
  intro st2 x _ hst2
  exact chamferUpd_inv hst2 _ _ _ _ _

theorem chamferDistance_inv (w h : Nat) {seed : Nat → Prop} {d : Nat → ℚ}
    (hd : ChamferInv seed d) : ChamferInv seed (chamferDistance w h d) :=
  chamferBwd_inv w h (chamferFwd_inv w h hd)

theorem outerInit_inv (input : ImgData) :
    ChamferInv (fun i => alphaMask input i > 1 / 10) (outerInit input) := by
  intro i
  constructor
  · intro hs
    rw [outerInit, if_pos hs]
  · intro hs
    rw [outerInit, if_neg hs, outlineBig]
    norm_num

theorem innerInit_inv (input : ImgData) :
    ChamferInv (fun i => ¬ alphaMask input i > 1 / 10) (innerInit input) := by
  intro i
  constructor
  · intro hs
    rw [innerInit, if_neg hs]
  · intro hs
    rw [innerInit, if_pos (not_not.1 hs), outlineBig]
    norm_num

theorem jround_natCast (n : Nat) : jround (n : ℚ) = n := by
  rw [jround, Int.floor_eq_iff]
  constructor
  · push_cast
    linarith
  · push_cast
    linarith

theorem clampByte_natCast (n : Nat) (h : n ≤ 255) : clampByte ((n : Nat) : Int) = n := by
  rw [clampByte]
  omega

theorem outlineChannel_id (input : ImgData) (opts : OutlineOpts)
    (ht : opts.thickness = 0) (hth : opts.threshold = 0)
    (i c : Nat) (hc : i * 4 + c < input.data.length) (hcc : c < 4)
    (hbyte : ∀ b ∈ input.data, b ≤ 255) :
    outlineChannel input opts
        (chamferDistance input.width input.height (outerInit input))
        (chamferDistance input.width input.height (innerInit input)) i c
      = input.data.getD (i * 4 + c) 0 := by
  have houter := chamferDistance_inv input.width input.height (outerInit_inv input)
  have hinner := chamferDistance_inv input.width input.height (innerInit_inv input)
  have hedge0 : opts.thickness * opts.positionValue = 0 := by rw [ht]; ring
  have hedge1 : opts.thickness * (1 - opts.positionValue) = 0 := by rw [ht]; ring
  simp only [outlineChannel, hedge0, hedge1, hth]
  have hcond : ¬ (((if alphaMask input i > 1 / 10
        then -(chamferDistance input.width input.height (innerInit input) i)
        else chamferDistance input.width input.height (outerInit input) i) + 0
          ≥ -(0 : ℚ) - 1 / 2) ∧
      ((if alphaMask input i > 1 / 10
        then -(chamferDistance input.width input.height (innerInit input) i)
        else chamferDistance input.width input.height (outerInit input) i) + 0
          ≤ (0 : ℚ) + 1 / 2)) := by
    by_cases hin : alphaMask input i > 1 / 10
    · rw [if_pos hin]
      have h1 : 1 ≤ chamferDistance input.width input.height (innerInit input) i :=
        (hinner i).2 (not_not_intro hin)
      intro hand
      have := hand.1
      linarith
    · rw [if_neg hin]
      have h1 : 1 ≤ chamferDistance input.width input.height (outerInit input) i :=
        (houter i).2 hin
      intro hand
      have := hand.2
      linarith
  rw [if_neg hcond]
  have hbyteD : ∀ j, j < input.data.length → input.data.getD j 0 ≤ 255 := by
    intro j hj
    rw [List.getD_eq_getElem _ _ hj]
    exact hbyte _ (input.data.getElem_mem hj)
  interval_cases c
  · rw [if_pos rfl]
    have : (input.data.getD (i * 4) 0 : ℚ) * (1 - 0 * opts.opacity)
        + opts.r * 255 * (0 * opts.opacity) = (input.data.getD (i * 4) 0 : ℚ) := by ring
    rw [this, jround_natCast, clampByte_natCast]
    · simp
    · exact hbyteD _ (by omega)
  · rw [if_neg (by omega), if_pos rfl]
    have : (input.data.getD (i * 4 + 1) 0 : ℚ) * (1 - 0 * opts.opacity)
        + opts.g * 255 * (0 * opts.opacity) = (input.data.getD (i * 4 + 1) 0 : ℚ) := by ring
    rw [this, jround_natCast, clampByte_natCast]
    exact hbyteD _ (by omega)
  · rw [if_neg (by omega), if_neg (by omega), if_pos rfl]
    have : (input.data.getD (i * 4 + 2) 0 : ℚ) * (1 - 0 * opts.opacity)
        + opts.b * 255 * (0 * opts.opacity) = (input.data.getD (i * 4 + 2) 0 : ℚ) := by ring
    rw [this, jround_natCast, clampByte_natCast]
    exact hbyteD _ (by omega)
  · rw [if_neg (by omega), if_neg (by omega), if_neg (by omega)]
    have hmax : max ((input.data.getD (i * 4 + 3) 0 : ℚ) / 255) (0 * opts.opacity)
        = (input.data.getD (i * 4 + 3) 0 : ℚ) / 255 := by
      rw [zero_mul]
      exact max_eq_left (by positivity)
    rw [hmax]
    have : (input.data.getD (i * 4 + 3) 0 : ℚ) / 255 * 255
        = (input.data.getD (i * 4 + 3) 0 : ℚ) := by
      field_simp
    rw [this, jround_natCast, clampByte_natCast]
    exact hbyteD _ (by omega)

/-- C4 (amended).  A `thickness` param of 0 resolves to the default 4 (the
`|| 4` coercion), so the outline executor is not a no-op for such a params
map; the CPU fallback is a pixelwise no-op exactly in the intended reading —
when the effective thickness and threshold are both 0. -/
theorem executeOutlineCanvas_noop (input : ImgData) (opts : OutlineOpts)
    (params : JsonFields) :
    (getNumParam params "thickness" = some 0 →
      (resolveOutlineOpts params).thickness = 4) ∧
    (opts.thickness = 0 → opts.threshold = 0 →
      input.data.length = input.width * input.height * 4 →
      (∀ b ∈ input.data, b ≤ 255) →
      executeOutlineCanvas input opts = input) := by
  constructor
  · intro h
    simp [resolveOutlineOpts, h]
  · intro ht hth hlen hbyte
    obtain ⟨w, h, data⟩ := input
    rw [executeOutlineCanvas]
    simp only at hlen hbyte ⊢
    refine congrArg (ImgData.mk w h) ?_
    refine List.ext_getElem (by simp [hlen]) ?_
    intro n h1 h2
    rw [List.getElem_map, List.getElem_range]
    have hn4 : n / 4 * 4 + n % 4 = n := by omega
    have hlt : n < (ImgData.mk w h data).data.length := h2
    have hch := outlineChannel_id (ImgData.mk w h data) opts ht hth (n / 4) (n % 4)
      (by simpa [hn4] using hlt) (by omega) hbyte
    rw [hn4] at hch
    rw [hch]
    exact List.getD_eq_getElem data 0 h2

/-- Params `{thickness: 0}`. -/
def psT0 : JsonFields := .cons "thickness" (.num 0) .nil

/-- Resolved options with effective thickness 0 and threshold 0. -/
def optsT0 : OutlineOpts := ⟨0, 1, 1, 1, 1, 1, 0⟩

/-- Witness for C4: on a 1×1 transparent image, the CPU fallback with
effective thickness 0 is the identity, and the params map `{thickness: 0}`
resolves to thickness 4. -/
theorem executeOutlineCanvas_noop_witness :
    executeOutlineCanvas ⟨1, 1, [0, 0, 0, 0]⟩ optsT0 = ⟨1, 1, [0, 0, 0, 0]⟩ ∧
    (resolveOutlineOpts psT0).thickness = 4 := by
  have h := executeOutlineCanvas_noop ⟨1, 1, [0, 0, 0, 0]⟩ optsT0 psT0
  exact ⟨h.2 rfl rfl (by decide) (by decide), h.1 rfl⟩

/-- A 4×4 image whose single opaque pixel is at `(1, 1)` (white, alpha 255);
everything else is transparent black. -/
def imgC4 : ImgData :=
  ⟨4, 4, List.replicate 20 0 ++ [255, 255, 255, 255] ++ List.replicate 40 0⟩

set_option maxRecDepth 10000 in
/-- Counterexample for C4 as stated: with the params map `{thickness: 0}` the
CPU path is not a pixelwise no-op — `|| 4` turns the 0 into the default
thickness 4, and the outline paints pixel `(1, 2)` (byte index 24) white. -/
theorem executeOutline_thickness_zero_not_noop :
    getNumParam psT0 "thickness" = some 0 ∧
    ¬ (∀ n, (executeOutlineNoGpu imgC4 psT0).data.getD n 0
        = imgC4.data.getD n 0) := by
  refine ⟨rfl, ?_⟩
  intro hall
  have h1 : (executeOutlineNoGpu imgC4 psT0).data.getD 24 0 = 255 := by
    with_unfolding_all decide
  have h2 : imgC4.data.getD 24 0 = 0 := by decide
  rw [hall 24, h2] at h1
  exact absurd h1 (by decide)

/-! ## The scheduler (`runner.ts`, claims C3, C5, C6, C10)

`runPipeline` is embedded as a deterministic function of the pipeline and an
environment of external capabilities: the four processing executors (ML/GPU
work), the input-node resize (`resizeBitmap` + `createFrame`), and the abort
signal's value as sampled at the top of each loop iteration and inside each
`catch` block.  Callback invocations (`onNodeStatus`) are collected as an
event trace; the local `nodeStates` map is threaded as a function from node
id to state. -/

/-- An `ImageFrame`: dimensions, monotonic revision, and an opaque bitmap
token standing for the pixels. -/
structure ImageFrame : Type where
  width : Nat
  height : Nat
  revision : Nat
  data : Nat
deriving DecidableEq, Repr

/-- `NodeStatus` (`types/execution.ts`). -/
inductive NodeStatus : Type where
  | idle
  | pending
  | running
  | done
  | error
  | cached
deriving DecidableEq, Repr

/-- `NodeState` (`types/execution.ts`). -/
structure NodeState : Type where
  status : NodeStatus
  progress : ℚ
  statusMessage : Option String
  downloadProgress : Option ℚ
  error : Option String
  output : Option ImageFrame
  cacheKey : Option String
  deviceUsed : Option String
deriving DecidableEq, Repr

/-- `createDefaultNodeState`. -/
def createDefaultNodeState : NodeState :=
  { status := .idle, progress := 0, statusMessage := none, downloadProgress := none,
    error := none, output := none, cacheKey := none, deviceUsed := none }

/-- The result of awaiting an executor: a frame, or a thrown error with its
`name` and `message`. -/
inductive ExecOutcome : Type where
  | ok (frame : ImageFrame)
  | raise (name : String) (msg : String)
deriving DecidableEq, Repr

/-- The external capabilities and the observed abort-signal values.
`exec t id inputs params` abstracts the four processing executors;
`inputExec id params` abstracts `resizeBitmap` + `createFrame` for input
nodes; `topAborted k` and `catchAborted k` are `abortSignal.aborted` as read
at the top of loop iteration `k` and inside its `catch`. -/
structure ExecEnv : Type where
  exec : NodeType → String → List ImageFrame → JsonFields → ExecOutcome
  inputExec : String → JsonFields → ExecOutcome
  topAborted : Nat → Bool
  catchAborted : Nat → Bool

/-- An error propagated out of `runPipeline`.  The source only ever throws a
plain `Error` with a message, or `DOMException('Aborted', 'AbortError')`; the
`validationError` constructor is modelled from the spec's error taxonomy (a
structured `ValidationError` carrying the list) purely so that claim C6 can
be stated; the source never constructs it. -/
inductive RunError : Type where
  | abortError
  | plainError (msg : String)
  | validationError (errs : List VError)
deriving DecidableEq, Repr

/-- One `onNodeStatus(nodeId, status, error?)` callback invocation. -/
structure RunEvent : Type where
  nodeId : String
  status : NodeStatus
  errMsg : Option String
deriving DecidableEq, Repr

/-- The threaded scheduler state: the `nodeStates` map and
`lastOutputFrame`. -/
structure RState : Type where
  states : String → NodeState
  lastOutput : Option ImageFrame

/-- The successful result of a run: the output frame plus the format and
quality its blob is encoded with (`bitmapToBlob` is platform encoding of
exactly these three), and the final node states. -/
structure RunResult : Type where
  frame : ImageFrame
  format : String
  quality : ℚ
  states : String → NodeState

/-- Point update of the `nodeStates` map (`updateState` / `Object.assign`). -/
def updState (f : String → NodeState) (id : String) (g : NodeState → NodeState) :
    String → NodeState :=
  fun x => if x = id then g (f x) else f x

/-- The inputs gathered for a node: outputs of its upstream nodes, in edge
order, skipping nodes without an output. -/
def nodeInputs (edges : List EdgeDef) (st : RState) (nodeId : String) : List ImageFrame :=
  (getUpstreamNodes nodeId edges).filterMap (fun u => (st.states u).output)

/-- The cache key computed for a node at its step:
`computeCacheKey(nodeId, params, inputRevisions)`. -/
def nodeKey (edges : List EdgeDef) (st : RState) (nodeId : String) (node : NodeDef) :
    String :=
  computeCacheKey nodeId node.params ((nodeInputs edges st nodeId).map (fun f => f.revision))

/-- The outcome of the `try` block's dispatch for one node: input nodes call
the resize capability, output nodes take their first input (or throw
`'No input to output node'`), processing nodes require an input
(`'No input image'`) and call their executor. -/
def nodeOutcome (env : ExecEnv) (edges : List EdgeDef) (st : RState) (nodeId : String)
    (node : NodeDef) : ExecOutcome :=
  match node.type with
  | .input => env.inputExec nodeId node.params
  | .output =>
    match nodeInputs edges st nodeId with
    | [] => .raise "Error" "No input to output node"
    | f :: _ => .ok f
  | t =>
    match nodeInputs edges st nodeId with
    | [] => .raise "Error" "No input image"
    | _ => env.exec t nodeId (nodeInputs edges st nodeId) node.params

/-- One iteration of the `for (const nodeId of order)` loop. -/
def stepNode (env : ExecEnv) (nodes : List NodeDef) (edges : List EdgeDef)
    (k : Nat) (st : RState) (nodeId : String) :
    List RunEvent × Except RunError RState :=
  if env.topAborted k then ([], .error .abortError)
  else
    match nodes.find? (fun n => decide (n.id = nodeId)) with
    | none => ([], .ok st)
    | some node =>
      let key := nodeKey edges st nodeId node
      let s0 := st.states nodeId
      if s0.cacheKey = some key ∧ s0.output.isSome then
        ([⟨nodeId, .cached, none⟩],
          .ok { states := updState st.states nodeId (fun s => { s with status := .cached }),
                lastOutput := if node.type = .output then s0.output else st.lastOutput })
      else
        let stRun : RState :=
          { st with states := updState st.states nodeId (fun s =>
              { s with status := .running, progress := 0 }) }
        match nodeOutcome env edges st nodeId node with
        | .ok f =>
          ([⟨nodeId, .running, none⟩, ⟨nodeId, .done, none⟩],
            .ok { states := updState stRun.states nodeId (fun s =>
                    { s with
                      status := .done,
                      progress := 1,
                      statusMessage := none,
                      downloadProgress := none,
                      output := some f,
                      cacheKey := some key,
                      error := none }),
                  lastOutput := if node.type = .output then some f else stRun.lastOutput })
        | .raise nm msg =>
          if nm = "AbortError" ∨ env.catchAborted k then
            ([⟨nodeId, .running, none⟩], .error .abortError)
          else
            ([⟨nodeId, .running, none⟩, ⟨nodeId, .error, some msg⟩],
              .ok { stRun with
                    states := updState stRun.states nodeId (fun s =>
                      { s with
                        status := .error,
                        error := some (if msg = "" then "Unknown error" else msg) }) })

/-- The execution loop over the topological order, collecting events and
stopping at the first thrown error. -/
def runFrom (env : ExecEnv) (nodes : List NodeDef) (edges : List EdgeDef) :
    Nat → RState → List String → List RunEvent × Except RunError RState
  | _, st, [] => ([], .ok st)
  | k, st, id1 :: rest =>
    match stepNode env nodes edges k st id1 with
    | (evs, .error er) => (evs, .error er)
    | (evs, .ok st2) =>
      let r := runFrom env nodes edges (k + 1) st2 rest
      (evs ++ r.1, r.2)

/-- `(outputNode?.params?.format as ...) || 'png'`. -/
def resolveOutputFormat (nodes : List NodeDef) : String :=
  match nodes.find? (fun n => decide (n.type = .output)) with
  | some n =>
    match getStrParam n.params "format" with
    | some s => if s = "" then "png" else s
    | none => "png"
  | none => "png"

/-- `(outputNode?.params?.quality as number) ?? 0.92`. -/
def resolveOutputQuality (nodes : List NodeDef) : ℚ :=
  match nodes.find? (fun n => decide (n.type = .output)) with
  | some n => (getNumParam n.params "quality").getD (92 / 100)
  | none => 92 / 100

/-- Model of `runPipeline` (`runner.ts`): validate, allocate a fresh
`nodeStates` map with every node `idle`, topo-sort, run every node in order,
and encode the last output frame. -/
def runPipeline (env : ExecEnv) (p : PipelineDefinition) :
    List RunEvent × Except RunError RunResult :=
  let errors := validatePipeline p.nodes p.edges
  if errors ≠ [] then
    ([], .error (.plainError ("Pipeline validation failed: "
      ++ joinSep "; " (errors.map (fun e => e.message)))))
  else
    match topoSort p.nodes p.edges with
    | .error m => ([], .error (.plainError m))
    | .ok order =>
      match runFrom env p.nodes p.edges 0
          ⟨fun _ => createDefaultNodeState, none⟩ order with
      | (evs, .error er) => (evs, .error er)
      | (evs, .ok st) =>
        match st.lastOutput with
        | none => (evs, .error (.plainError "Pipeline produced no output"))
        | some f =>
          (evs, .ok { frame := f, format := resolveOutputFormat p.nodes,
                      quality := resolveOutputQuality p.nodes, states := st.states })

/-! ### Scheduler plumbing lemmas -/

theorem find_node_of_declared (nodes : List NodeDef) (id : String)
    (h : id ∈ declaredIds nodes) :
    ∃ nd, nodes.find? (fun n => decide (n.id = id)) = some nd ∧ nd.id = id := by
  rw [declaredIds, jsDedup_mem] at h
  obtain ⟨n, hn, hid⟩ := List.mem_map.1 h
  have hsome : (nodes.find? (fun n => decide (n.id = id))).isSome := by
    rw [List.find?_isSome]
    exact ⟨n, hn, by simp [hid]⟩
  obtain ⟨nd, hnd⟩ := Option.isSome_iff_exists.1 hsome
  refine ⟨nd, hnd, ?_⟩
  have := List.find?_some hnd
  simpa using this

/-- A list of node ids is topologically consistent: for every valid edge,
once the target occurs, the source does not occur at or after it. -/
def OrderOK (nodes : List NodeDef) (edges : List EdgeDef) (l : List String) : Prop :=
  ∀ e ∈ validEdges nodes edges, ∀ l1 l2, l = l1 ++ e.target :: l2 →
    e.source ∉ e.target :: l2

theorem orderOK_tail {nodes : List NodeDef} {edges : List EdgeDef} {x : String}
    {rest : List String} (h : OrderOK nodes edges (x :: rest)) :
    OrderOK nodes edges rest := by
  intro e he l1 l2 hl
  exact h e he (x :: l1) l2 (by rw [hl]; simp)

theorem indexOf_suffix_ge {b a : String} :
    ∀ (l1 l2 : List String), b ∉ l1 → b ≠ a →
    l1.length + 1 ≤ (l1 ++ a :: l2).indexOf b := by
  intro l1
  induction l1 with
  | nil =>
    intro l2 _ hba
    simp only [List.nil_append, List.length_nil]
    rw [List.indexOf_cons_ne _ (by simpa using Ne.symm hba)]
    omega
  | cons x xs ih =>
    intro l2 hb hba
    have hbx : b ≠ x := fun h => hb (by simp [h])
    have hbxs : b ∉ xs := fun h => hb (by simp [h])
    simp only [List.cons_append, List.length_cons]
    rw [List.indexOf_cons_ne _ (by simpa using Ne.symm hbx)]
    have := ih l2 hbxs hba
    omega

theorem orderOK_of_topoSort (nodes : List NodeDef) (edges : List EdgeDef)
    (l : List String) (h : topoSort nodes edges = .ok l) : OrderOK nodes edges l := by
  obtain ⟨hnd, hmem, hperm, hbefore⟩ := topoSort_ok_facts nodes edges l h
  intro e he l1 l2 hl
  have hidx := listBefore_indexOf hnd (hbefore e he)
  intro hmem2
  have hnd2 := hl ▸ hnd
  rw [List.nodup_append] at hnd2
  obtain ⟨hnd1, hndc, hdisj⟩ := hnd2
  rcases List.mem_cons.1 hmem2 with hEq | hin
  · rw [hEq] at hidx
    exact lt_irrefl _ hidx
  · have hne : e.source ≠ e.target := by
      intro h2
      rw [h2] at hidx
      exact lt_irrefl _ hidx
    have hsrc1 : e.source ∉ l1 := fun h2 => hdisj h2 (by simp [hin])
    have htgt1 : e.target ∉ l1 := fun h2 => hdisj h2 (by simp)
    have hi1 : l.indexOf e.target = l1.length := by
      rw [hl]
      exact indexOf_prefix l1 l2 htgt1
    have hi2 : l1.length + 1 ≤ l.indexOf e.source := by
      rw [hl]
      exact indexOf_suffix_ge l1 l2 hsrc1 hne
    omega

theorem runFrom_append (env : ExecEnv) (nodes : List NodeDef) (edges : List EdgeDef) :
    ∀ (l1 l2 : List String) (k : Nat) (st : RState),
    runFrom env nodes edges k st (l1 ++ l2)
      = (match runFrom env nodes edges k st l1 with
         | (evs, .error er) => (evs, .error er)
         | (evs, .ok st2) =>
            (evs ++ (runFrom env nodes edges (k + l1.length) st2 l2).1,
              (runFrom env nodes edges (k + l1.length) st2 l2).2)) := by
  intro l1
  induction l1 with
  | nil =>
    intro l2 k st
    simp [runFrom]
  | cons x xs ih =>
    intro l2 k st
    rw [List.cons_append, runFrom, runFrom]
    rcases hstep : stepNode env nodes edges k st x with ⟨evs, r⟩
    rcases r with er | st2
    · rfl
    · simp only
      rw [ih l2 (k + 1) st2]
      have harith : k + 1 + xs.length = k + (xs.length + 1) := by omega
      rcases hrun : runFrom env nodes edges (k + 1) st2 xs with ⟨evs2, r2⟩
      rcases r2 with er2 | st3 <;>
        simp [harith, List.append_assoc]

theorem updState_updState (f : String → NodeState) (id : String)
    (g1 g2 : NodeState → NodeState) :
    updState (updState f id g1) id g2 = updState f id (fun s => g2 (g1 s)) := by
  funext x
  rw [updState, updState, updState]
  by_cases hx : x = id
  · rw [if_pos hx, if_pos hx, if_pos hx]
  · rw [if_neg hx, if_neg hx, if_neg hx]

theorem stepNode_ok (env : ExecEnv) (nodes : List NodeDef) (edges : List EdgeDef)
    (k : Nat) (st : RState) (id : String) (nd : NodeDef) (f : ImageFrame)
    (htop : env.topAborted k = false)
    (hfind : nodes.find? (fun n => decide (n.id = id)) = some nd)
    (hkey : (st.states id).cacheKey = none)
    (hout : nodeOutcome env edges st id nd = .ok f) :
    stepNode env nodes edges k st id =
      ([⟨id, .running, none⟩, ⟨id, .done, none⟩],
        .ok { states := updState st.states id (fun s =>
                { s with
                  status := .done,
                  progress := 1,
                  statusMessage := none,
                  downloadProgress := none,
                  output := some f,
                  cacheKey := some (nodeKey edges st id nd),
                  error := none }),
              lastOutput := if nd.type = .output then some f else st.lastOutput }) := by
  rw [stepNode, if_neg (by simp [htop]), hfind]
  simp only
  rw [if_neg (by simp [hkey]), hout]
  simp only
  rw [updState_updState]

theorem stepNode_err (env : ExecEnv) (nodes : List NodeDef) (edges : List EdgeDef)
    (k : Nat) (st : RState) (id : String) (nd : NodeDef) (nm msg : String)
    (htop : env.topAborted k = false)
    (hcatch : env.catchAborted k = false)
    (hfind : nodes.find? (fun n => decide (n.id = id)) = some nd)
    (hkey : (st.states id).cacheKey = none)
    (hout : nodeOutcome env edges st id nd = .raise nm msg)
    (hnm : nm ≠ "AbortError") :
    stepNode env nodes edges k st id =
      ([⟨id, .running, none⟩, ⟨id, .error, some msg⟩],
        .ok { st with
              states := updState st.states id (fun s =>
                { s with
                  status := .error,
                  progress := 0,
                  error := some (if msg = "" then "Unknown error" else msg) }) }) := by
  rw [stepNode, if_neg (by simp [htop]), hfind]
  simp only
  rw [if_neg (by simp [hkey]), hout]
  simp only
  rw [if_neg (by simp [hnm, hcatch])]
  rw [updState_updState]

theorem stepNode_abort (env : ExecEnv) (nodes : List NodeDef) (edges : List EdgeDef)
    (k : Nat) (st : RState) (id : String) (nd : NodeDef) (nm msg : String)
    (htop : env.topAborted k = false)
    (hfind : nodes.find? (fun n => decide (n.id = id)) = some nd)
    (hkey : (st.states id).cacheKey = none)
    (hout : nodeOutcome env edges st id nd = .raise nm msg)
    (habort : nm = "AbortError" ∨ env.catchAborted k = true) :
    stepNode env nodes edges k st id = ([⟨id, .running, none⟩], .error .abortError) := by
  rw [stepNode, if_neg (by simp [htop]), hfind]
  simp only
  rw [if_neg (by simp [hkey]), hout]
  simp only
  rw [if_pos (by tauto)]

/-- The state recorded for a node whose executor threw a non-abort error. -/
def errState (st : RState) (id : String) (msg : String) : RState :=
  { st with states := updState st.states id (fun s =>
      { s with
        status := .error,
        progress := 0,
        error := some (if msg = "" then "Unknown error" else msg) }) }

/-- The scheduler state after running a prefix of the order from the fresh
all-default state map (total by falling back to the fresh state, which is
never used on the runs we instantiate it at). -/
def stateAfter (env : ExecEnv) (nodes : List NodeDef) (edges : List EdgeDef)
    (l : List String) : RState :=
  match (runFrom env nodes edges 0 ⟨fun _ => createDefaultNodeState, none⟩ l).2 with
  | .ok st => st
  | .error _ => ⟨fun _ => createDefaultNodeState, none⟩


theorem stepNode_events_nodeId (env : ExecEnv) (nodes : List NodeDef) (edges : List EdgeDef)
    (k : Nat) (st : RState) (id : String) :
    ∀ ev ∈ (stepNode env nodes edges k st id).1, ev.nodeId = id := by
  intro ev hev
  rw [stepNode] at hev
  dsimp only at hev
  split at hev
  · simp at hev
  · split at hev
    · simp at hev
    · split at hev
      · simp at hev
        simp [hev]
      · split at hev
        · simp at hev
          rcases hev with h | h <;> simp [h]
        · split at hev
          · simp at hev
            simp [hev]
          · simp at hev
            rcases hev with h | h <;> simp [h]

theorem stepNode_not_cached_events (env : ExecEnv) (nodes : List NodeDef)
    (edges : List EdgeDef) (k : Nat) (st : RState) (id : String)
    (hkey : (st.states id).cacheKey = none) :
    ∀ ev ∈ (stepNode env nodes edges k st id).1, ev.status ≠ .cached := by
  intro ev hev
  rw [stepNode] at hev
  dsimp only at hev
  split at hev
  · simp at hev
  · split at hev
    · simp at hev
    · split at hev
      · next hc =>
        rw [hkey] at hc
        simp at hc
      · split at hev
        · simp at hev
          rcases hev with h | h <;> simp [h]
        · split at hev
          · simp at hev
            simp [hev]
          · simp at hev
            rcases hev with h | h <;> simp [h]

theorem stepNode_preserves_other (env : ExecEnv) (nodes : List NodeDef)
    (edges : List EdgeDef) (k : Nat) (st : RState) (id : String) (st2 : RState)
    (h : (stepNode env nodes edges k st id).2 = .ok st2)
    (x : String) (hx : x ≠ id) : st2.states x = st.states x := by
  rw [stepNode] at h
  dsimp only at h
  split at h
  · simp at h
  · split at h
    · dsimp only at h
      injection h with h
      rw [← h]
    · split at h
      · dsimp only at h
        injection h with h
        rw [← h]
        simp [updState, hx]
      · split at h
        · dsimp only at h
          injection h with h
          rw [← h]
          simp [updState, hx]
        · split at h
          · simp at h
          · dsimp only at h
            injection h with h
            rw [← h]
            simp [updState, hx]

theorem runFrom_events_nodeId (env : ExecEnv) (nodes : List NodeDef) (edges : List EdgeDef) :
    ∀ (l : List String) (k : Nat) (st : RState),
    ∀ ev ∈ (runFrom env nodes edges k st l).1, ev.nodeId ∈ l := by
  intro l
  induction l with
  | nil =>
    intro k st ev hev
    simp [runFrom] at hev
  | cons x xs ih =>
    intro k st ev hev
    rw [runFrom] at hev
    rcases hstep : stepNode env nodes edges k st x with ⟨evs, r⟩
    rw [hstep] at hev
    rcases r with er | st2
    · simp only at hev
      have := stepNode_events_nodeId env nodes edges k st x ev (by rw [hstep]; exact hev)
      simp [this]
    · simp only at hev
      rcases List.mem_append.1 hev with h1 | h2
      · have := stepNode_events_nodeId env nodes edges k st x ev (by rw [hstep]; exact h1)
        simp [this]
      · exact List.mem_cons_of_mem x (ih (k + 1) st2 ev h2)

theorem runFrom_no_cached (env : ExecEnv) (nodes : List NodeDef) (edges : List EdgeDef) :
    ∀ (l : List String) (k : Nat) (st : RState), l.Nodup →
    (∀ id ∈ l, (st.states id).cacheKey = none) →
    ∀ ev ∈ (runFrom env nodes edges k st l).1, ev.status ≠ .cached := by
  intro l
  induction l with
  | nil =>
    intro k st _ _ ev hev
    simp [runFrom] at hev
  | cons x xs ih =>
    intro k st hnd hkeys ev hev
    rw [runFrom] at hev
    rcases hstep : stepNode env nodes edges k st x with ⟨evs, r⟩
    rw [hstep] at hev
    rcases r with er | st2
    · simp only at hev
      exact stepNode_not_cached_events env nodes edges k st x (hkeys x (by simp)) ev
        (by rw [hstep]; exact hev)
    · simp only at hev
      rcases List.mem_append.1 hev with h1 | h2
      · exact stepNode_not_cached_events env nodes edges k st x (hkeys x (by simp)) ev
          (by rw [hstep]; exact h1)
      · refine ih (k + 1) st2 (List.nodup_cons.1 hnd).2 ?_ ev h2
        intro id hid
        have hne : id ≠ x := fun hEq => (List.nodup_cons.1 hnd).1 (hEq ▸ hid)
        rw [stepNode_preserves_other env nodes edges k st x st2 (by rw [hstep]) id hne]
        exact hkeys id (List.mem_cons_of_mem x hid)

/-! ## The runner claims: fixtures and C5 -/

def pR : PipelineDefinition :=
  ⟨1, [⟨"a", .input, .nil⟩, ⟨"b", .removeBg, .nil⟩, ⟨"o", .output, .nil⟩],
      [⟨"e1", "a", "out", "b", "in"⟩, ⟨"e2", "b", "out", "o", "in"⟩]⟩

def envOk : ExecEnv :=
  ⟨fun _ _ _ _ => .ok ⟨1, 1, 3, 0⟩, fun _ _ => .ok ⟨1, 1, 7, 0⟩,
    fun _ => false, fun _ => false⟩

/-- C5: the warm-cache claim as amended.  `runPipeline` allocates a fresh
`nodeStates` map on every call (every node starts `idle` with `cacheKey:
null`), so no call — in particular not a second call with unchanged pipeline
and input — ever reports status `cached` for any node. -/
theorem runPipeline_never_cached (env : ExecEnv) (p : PipelineDefinition) :
    ∀ ev ∈ (runPipeline env p).1, ev.status ≠ .cached := by
  intro ev hev
  rw [runPipeline] at hev
  split at hev
  · simp at hev
  · split at hev
    · simp at hev
    · next order horder =>
      rcases hrun : runFrom env p.nodes p.edges 0
          ⟨fun _ => createDefaultNodeState, none⟩ order with ⟨evs, r⟩
      rw [hrun] at hev
      have hmem : ev ∈ evs := by
        rcases r with er | st
        · simpa using hev
        · dsimp only at hev
          split at hev
          · simpa using hev
          · simpa using hev
      exact runFrom_no_cached env p.nodes p.edges order 0 _
        (topoSort_ok_facts p.nodes p.edges order horder).1 (fun id _ => rfl) ev
        (by rw [hrun]; exact hmem)

theorem runPipeline_never_cached_witness :
    (⟨"a", .done, none⟩ : RunEvent) ∈ (runPipeline envOk pR).1
      ∧ (⟨"a", .done, none⟩ : RunEvent).status ≠ .cached :=
  ⟨by with_unfolding_all decide,
    runPipeline_never_cached envOk pR ⟨"a", .done, none⟩ (by with_unfolding_all decide)⟩

/-- C5 counterexample: a second, identical call to `runPipeline` (the
function takes no node-state argument, so this is the only way to repeat a
run) reports `running` / `done` for every node — never `cached` — refuting
the claim that a warm-cache rerun reports `cached` for every node. -/
theorem runPipeline_second_call_not_cached :
    (runPipeline envOk pR).1 =
      [⟨"a", .running, none⟩, ⟨"a", .done, none⟩,
       ⟨"b", .running, none⟩, ⟨"b", .done, none⟩,
       ⟨"o", .running, none⟩, ⟨"o", .done, none⟩]
    ∧ (⟨"a", .cached, none⟩ : RunEvent) ∉ (runPipeline envOk pR).1
    ∧ (⟨"b", .cached, none⟩ : RunEvent) ∉ (runPipeline envOk pR).1
    ∧ (⟨"o", .cached, none⟩ : RunEvent) ∉ (runPipeline envOk pR).1 := by
  with_unfolding_all decide

/-! ## C6: validation failure -/

def pC6 : PipelineDefinition := ⟨1, [⟨"a", .input, .nil⟩], []⟩

/-- C6 as amended: when `validatePipeline` reports a non-empty error list,
`runPipeline` fails before executing any node (no status events are emitted)
by throwing a plain `Error` whose message is `'Pipeline validation failed: '`
followed by all the validation messages joined with `'; '` — the full list is
carried only in this concatenated-string form. -/
theorem runPipeline_validation_failure (env : ExecEnv) (p : PipelineDefinition)
    (h : validatePipeline p.nodes p.edges ≠ []) :
    runPipeline env p =
      ([], .error (.plainError ("Pipeline validation failed: "
        ++ joinSep "; " ((validatePipeline p.nodes p.edges).map (fun e => e.message))))) := by
  rw [runPipeline]
  rw [if_pos h]

theorem runPipeline_validation_failure_witness :
    validatePipeline pC6.nodes pC6.edges ≠ []
    ∧ runPipeline envOk pC6 =
      ([], .error (.plainError ("Pipeline validation failed: "
        ++ joinSep "; " ((validatePipeline pC6.nodes pC6.edges).map (fun e => e.message))))) :=
  ⟨by decide, runPipeline_validation_failure envOk pC6 (by decide)⟩

/-- C6 counterexample: on an invalid pipeline the thrown value is the plain
error with the joined message string; it is not a structured
`ValidationError` carrying the list of validation errors, for any list. -/
theorem runPipeline_validation_not_structured :
    (runPipeline envOk pC6).2 =
      .error (.plainError ("Pipeline validation failed: Pipeline needs at least one Output node; Input node \"a\" has no outgoing connection"))
    ∧ ∀ errs : List VError,
        (runPipeline envOk pC6).2 ≠ .error (.validationError errs) := by
  constructor
  · rfl
  · intro errs h
    have h1 : (runPipeline envOk pC6).2 =
        .error (.plainError ("Pipeline validation failed: Pipeline needs at least one Output node; Input node \"a\" has no outgoing connection")) := rfl
    rw [h1] at h
    simp at h

/-! ## C3: executor errors are isolated -/

/-- C3 as amended: inside `runPipeline`'s execution loop (`runFrom`), when a
node's dispatch throws `nm`/`msg` from a fresh (uncached) state: (1) if the
error is not an `AbortError` and the signal is not aborted, the node's state
records status `error` with the message (defaulted to `'Unknown error'` when
empty), the `error` event carries the message, and the loop continues with
the remaining nodes; (2) an `AbortError`, or any error thrown while the
signal is aborted, aborts the whole run with `AbortError` instead; (3) a
downstream *processing* node whose inputs are all missing throws exactly
`'No input image'` — but a downstream *output* node throws
`'No input to output node'`, which is the correction to the claim. -/
theorem runFrom_error_isolation
    (env : ExecEnv) (nodes : List NodeDef) (edges : List EdgeDef)
    (k : Nat) (st : RState) (id : String) (rest : List String)
    (nd : NodeDef) (nm msg : String)
    (htop : env.topAborted k = false)
    (hfind : nodes.find? (fun n => decide (n.id = id)) = some nd)
    (hkey : (st.states id).cacheKey = none)
    (hout : nodeOutcome env edges st id nd = .raise nm msg) :
    (env.catchAborted k = false → nm ≠ "AbortError" →
      runFrom env nodes edges k st (id :: rest) =
        ([⟨id, .running, none⟩, ⟨id, .error, some msg⟩]
            ++ (runFrom env nodes edges (k + 1) (errState st id msg) rest).1,
          (runFrom env nodes edges (k + 1) (errState st id msg) rest).2))
    ∧ (nm = "AbortError" ∨ env.catchAborted k = true →
        runFrom env nodes edges k st (id :: rest) = ([⟨id, .running, none⟩], .error .abortError))
    ∧ (nd.type ≠ .input → nd.type ≠ .output → nodeInputs edges st id = [] →
        nm = "Error" ∧ msg = "No input image") := by
  refine ⟨?_, ?_, ?_⟩
  · intro hcatch hnm
    rw [runFrom, stepNode_err env nodes edges k st id nd nm msg htop hcatch hfind hkey hout hnm]
    rfl
  · intro hab
    rw [runFrom, stepNode_abort env nodes edges k st id nd nm msg htop hfind hkey hout hab]
  · intro hni hno hinputs
    rw [nodeOutcome] at hout
    cases hty : nd.type with
    | input => exact absurd hty hni
    | output => exact absurd hty hno
    | removeBg =>
      rw [hty, hinputs] at hout
      injection hout with h1 h2
      exact ⟨h1.symm, h2.symm⟩
    | normalize =>
      rw [hty, hinputs] at hout
      injection hout with h1 h2
      exact ⟨h1.symm, h2.symm⟩
    | upscale =>
      rw [hty, hinputs] at hout
      injection hout with h1 h2
      exact ⟨h1.symm, h2.symm⟩
    | outline =>
      rw [hty, hinputs] at hout
      injection hout with h1 h2
      exact ⟨h1.symm, h2.symm⟩

def envBoom : ExecEnv :=
  ⟨fun _ _ _ _ => .raise "Error" "boom", fun _ _ => .ok ⟨1, 1, 7, 0⟩,
    fun _ => false, fun _ => false⟩

def pC3 : PipelineDefinition :=
  ⟨1, [⟨"a", .input, .nil⟩, ⟨"b", .removeBg, .nil⟩, ⟨"c", .upscale, .nil⟩,
       ⟨"o", .output, .nil⟩],
      [⟨"e1", "a", "out", "b", "in"⟩, ⟨"e2", "b", "out", "c", "in"⟩,
       ⟨"e3", "c", "out", "o", "in"⟩]⟩

def stC3 : RState := stateAfter envBoom pC3.nodes pC3.edges ["a", "b"]

/-- C3 witness: in the pipeline `a → b → c → o` where `b`'s executor throws,
the downstream processing node `c` has no inputs, throws
`'No input image'`, is recorded as `error` with that message, and the run
continues with `o`. -/
theorem runFrom_error_isolation_witness :
    (envBoom.topAborted 2 = false
      ∧ pC3.nodes.find? (fun n => decide (n.id = "c")) = some ⟨"c", .upscale, .nil⟩
      ∧ (stC3.states "c").cacheKey = none
      ∧ nodeOutcome envBoom pC3.edges stC3 "c" ⟨"c", .upscale, .nil⟩
          = .raise "Error" "No input image"
      ∧ nodeInputs pC3.edges stC3 "c" = [])
    ∧ runFrom envBoom pC3.nodes pC3.edges 2 stC3 ["c", "o"] =
        ([⟨"c", .running, none⟩, ⟨"c", .error, some "No input image"⟩]
            ++ (runFrom envBoom pC3.nodes pC3.edges 3 (errState stC3 "c" "No input image") ["o"]).1,
          (runFrom envBoom pC3.nodes pC3.edges 3 (errState stC3 "c" "No input image") ["o"]).2) :=
  ⟨⟨rfl, rfl, by with_unfolding_all decide, by with_unfolding_all decide,
      by with_unfolding_all decide⟩,
    (runFrom_error_isolation envBoom pC3.nodes pC3.edges 2 stC3 "c" ["o"]
        ⟨"c", .upscale, .nil⟩ "Error" "No input image" rfl rfl
        (by with_unfolding_all decide) (by with_unfolding_all decide)).1
      rfl (by decide)⟩

/-- C3 counterexample: when the failed node's downstream is the *output*
node, it is recorded with `'No input to output node'`, not the claimed
`'No input image'`. -/
theorem runPipeline_downstream_output_message :
    (runPipeline envBoom pR).1 =
      [⟨"a", .running, none⟩, ⟨"a", .done, none⟩,
       ⟨"b", .running, none⟩, ⟨"b", .error, some "boom"⟩,
       ⟨"o", .running, none⟩, ⟨"o", .error, some "No input to output node"⟩]
    ∧ "No input to output node" ≠ "No input image" := by
  with_unfolding_all decide

/-! ## C10: abort rethrow -/

/-- C10: if the abort signal is observed aborted inside the `catch` at the
moment a node's dispatch throws — whatever the thrown error is —
`runPipeline` rethrows `AbortError` to the caller: the run's result is the
abort error, the events are exactly those of the already-finished prefix
plus the node's `running` event, and no `error`-status event is ever
recorded for that node. -/
theorem runPipeline_abort_rethrow
    (env : ExecEnv) (p : PipelineDefinition) (pre rest : List String)
    (id : String) (nd : NodeDef) (nm msg : String)
    (evsPre : List RunEvent) (stMid : RState)
    (hval : validatePipeline p.nodes p.edges = [])
    (horder : topoSort p.nodes p.edges = .ok (pre ++ id :: rest))
    (hpre : runFrom env p.nodes p.edges 0 ⟨fun _ => createDefaultNodeState, none⟩ pre
      = (evsPre, .ok stMid))
    (htop : env.topAborted pre.length = false)
    (hcatch : env.catchAborted pre.length = true)
    (hfind : p.nodes.find? (fun n => decide (n.id = id)) = some nd)
    (hkey : (stMid.states id).cacheKey = none)
    (hout : nodeOutcome env p.edges stMid id nd = .raise nm msg) :
    runPipeline env p = (evsPre ++ [⟨id, .running, none⟩], .error .abortError)
    ∧ ∀ m, (⟨id, .error, m⟩ : RunEvent) ∉ (runPipeline env p).1 := by
  have hnodup := (topoSort_ok_facts p.nodes p.edges _ horder).1
  have hmain : runPipeline env p = (evsPre ++ [⟨id, .running, none⟩], .error .abortError) := by
    rw [runPipeline]
    rw [if_neg (by simp [hval])]
    rw [horder]
    dsimp only
    rw [runFrom_append env p.nodes p.edges pre (id :: rest) 0 _]
    rw [hpre]
    dsimp only
    rw [Nat.zero_add]
    rw [runFrom]
    rw [stepNode_abort env p.nodes p.edges pre.length stMid id nd nm msg htop hfind hkey
      hout (Or.inr hcatch)]
  refine ⟨hmain, ?_⟩
  intro m hm
  rw [hmain] at hm
  rcases List.mem_append.1 hm with h1 | h2
  · have hni := runFrom_events_nodeId env p.nodes p.edges pre 0
      ⟨fun _ => createDefaultNodeState, none⟩ ⟨id, .error, m⟩ (by rw [hpre]; exact h1)
    rw [List.nodup_append] at hnodup
    exact hnodup.2.2 hni (by simp)
  · simp at h2

def envAbort : ExecEnv :=
  ⟨fun _ _ _ _ => .raise "Error" "boom", fun _ _ => .ok ⟨1, 1, 7, 0⟩,
    fun _ => false, fun k => decide (k = 1)⟩

def stMid10 : RState := stateAfter envAbort pR.nodes pR.edges ["a"]

/-- C10 witness: in `a → b → o`, `b`'s executor throws a plain `'boom'`
error while the signal reads aborted in the catch; the run ends with
`AbortError` and `b` is never reported as `error`. -/
theorem runPipeline_abort_rethrow_witness :
    (validatePipeline pR.nodes pR.edges = []
      ∧ topoSort pR.nodes pR.edges = .ok (["a"] ++ "b" :: ["o"])
      ∧ runFrom envAbort pR.nodes pR.edges 0 ⟨fun _ => createDefaultNodeState, none⟩ ["a"]
          = ([⟨"a", .running, none⟩, ⟨"a", .done, none⟩], .ok stMid10)
      ∧ envAbort.topAborted 1 = false
      ∧ envAbort.catchAborted 1 = true
      ∧ pR.nodes.find? (fun n => decide (n.id = "b")) = some ⟨"b", .removeBg, .nil⟩
      ∧ (stMid10.states "b").cacheKey = none
      ∧ nodeOutcome envAbort pR.edges stMid10 "b" ⟨"b", .removeBg, .nil⟩
          = .raise "Error" "boom")
    ∧ runPipeline envAbort pR =
        ([⟨"a", .running, none⟩, ⟨"a", .done, none⟩] ++ [⟨"b", .running, none⟩],
          .error .abortError)
    ∧ ∀ m, (⟨"b", .error, m⟩ : RunEvent) ∉ (runPipeline envAbort pR).1 :=
  ⟨⟨by decide, rfl, rfl, rfl, rfl, rfl, by with_unfolding_all decide,
      by with_unfolding_all decide⟩,
    runPipeline_abort_rethrow envAbort pR ["a"] ["o"] "b" ⟨"b", .removeBg, .nil⟩
      "Error" "boom" [⟨"a", .running, none⟩, ⟨"a", .done, none⟩] stMid10
      (by decide) rfl rfl rfl rfl rfl (by with_unfolding_all decide)
      (by with_unfolding_all decide)⟩
